import Mathlib

/-!
Shallow embedding of the CAN message-mapping/transport core of
`libopeninv_F4` (`src/stm32_can.cpp`, `include/stm32_can.h`).

Modelling conventions:
* machine integers are `Nat` / `Int` with explicit wrapping (`toUInt`,
  `toSInt`) at the points where the C code stores into a sized field;
* the C `float` gain and the external `s32fp` fixed-point arithmetic
  (from `my_math.h`, which is not part of `src/`) are idealized as exact
  rationals `ℚ`;
* the external collaborators (parameter store, CRC peripheral, CAN
  hardware mailboxes, flash) are passed in as explicit function
  parameters, mirroring the interfaces listed in the spec;
* fixed-size C arrays are Lean lists whose length invariants
  (`MAX_MESSAGES`, `MAX_ITEMS_PER_MESSAGE`, ...) are carried in the
  statements.
-/

namespace Stm32Can

/-- Wrap an integer into an unsigned `w`-bit field, as a C store into a
`uintw_t` does. -/
def toUInt (w : ℕ) (x : ℤ) : ℕ := (x % (2 ^ w : ℕ)).toNat

/-- Wrap an integer into a signed `w`-bit field (two's complement), as a
C store into an `intw_t` does. -/
def toSInt (w : ℕ) (x : ℤ) : ℤ := (x + 2 ^ (w - 1)) % 2 ^ w - 2 ^ (w - 1)

/-- MAX_ITEMS_PER_MESSAGE from `stm32_can.h` (default configuration). -/
def MAX_ITEMS_PER_MESSAGE : ℕ := 10

/-- MAX_MESSAGES from `stm32_can.h` (default configuration). -/
def MAX_MESSAGES : ℕ := 10

/-- SENDBUFFER_LEN from `stm32_can.h` (default configuration). -/
def SENDBUFFER_LEN : ℕ := 20

/-- CANID_UNSET marker (0xffffffff) from `stm32_can.cpp`. -/
def CANID_UNSET : ℕ := 0xffffffff

/-- NUMBITS_LASTMARKER (-1) from `stm32_can.cpp`. -/
def NUMBITS_LASTMARKER : ℤ := -1

/-- struct CANPOS of `stm32_can.h`: one field mapping.  `mapParam` is a
`uint16_t`, `offset` an `int16_t`, `gain` a `float` (idealized as `ℚ`),
`offsetBits` a `uint8_t`, `numBits` an `int8_t`. -/
structure CANPOS where
  mapParam : ℕ
  offset : ℤ
  gain : ℚ
  offsetBits : ℕ
  numBits : ℤ
  deriving DecidableEq, Repr, Inhabited

/-- struct CANIDMAP of `stm32_can.h`: a CAN identifier (`uint32_t`) plus
`MAX_ITEMS_PER_MESSAGE` field-mapping slots. -/
structure CANIDMAP where
  canId : ℕ
  items : List CANPOS
  deriving DecidableEq, Repr, Inhabited

/-- Active field mappings of one message: the `forEachPosMap` macro scans
`items` while `numBits > 0`. -/
def activeItems (c : CANIDMAP) : List CANPOS :=
  c.items.takeWhile (fun p => 0 < p.numBits)

/-- Active messages of a table: the `forEachCanMap` macro scans slots
while `canId < CANID_UNSET`. -/
def activeMsgs (m : List CANIDMAP) : List CANIDMAP :=
  m.takeWhile (fun c => c.canId < CANID_UNSET)

/-- Fully cleared field-mapping slot (static zero-initialized storage). -/
def clearedPos : CANPOS :=
  { mapParam := 0, offset := 0, gain := 0, offsetBits := 0, numBits := 0 }

/-- Fully cleared message slot. -/
def clearedSlot : CANIDMAP :=
  { canId := CANID_UNSET, items := List.replicate MAX_ITEMS_PER_MESSAGE clearedPos }

/-- A whole table of cleared message slots: the state of `canSendMap` /
`canRecvMap` right after `Can::ClearMap` on zero-initialized storage. -/
def freshMap : List CANIDMAP := List.replicate MAX_MESSAGES clearedSlot

/-- Can::ClearMap: sets every `canId` to `CANID_UNSET` and every item's
`numBits` to 0; it does not touch the other item fields. -/
def clearMap (m : List CANIDMAP) : List CANIDMAP :=
  m.map (fun c =>
    { canId := CANID_UNSET, items := c.items.map (fun p => { p with numBits := 0 }) })

/-- Can::FindById: linear scan over all `MAX_MESSAGES` slots, returning
the index of the first slot whose `canId` equals the argument (the C
code returns a pointer; we return the index). -/
def findById (m : List CANIDMAP) (canId : ℕ) : Option ℕ :=
  match m with
  | [] => none
  | c :: rest => if c.canId = canId then some 0 else (findById rest canId).map (· + 1)

/-- Free-slot scan of Can::Add: `for (; freeItem->numBits > 0; freeItem++);`.
Returns the index of the first item with `numBits ≤ 0`; `none` means the
scan ran off the end of the `items` array (in the C code this is an
out-of-bounds access into adjacent memory). -/
def scanFree (items : List CANPOS) : Option ℕ :=
  match items with
  | [] => none
  | p :: rest => if 0 < p.numBits then (scanFree rest).map (· + 1) else some 0

/-- Result of Can::Add.  The C function returns an `int`: the active
message count on success and the negative `CAN_ERR_*` codes on failure;
`overrun` marks the case where the free-slot scan leaves the
`MAX_ITEMS_PER_MESSAGE`-entry array (undefined behaviour in the C code,
which then reads and possibly writes adjacent memory). -/
inductive AddResult where
  | ok (count : ℕ)
  | errInvalidId
  | errInvalidOfs
  | errInvalidLen
  | errMaxMessages
  | errMaxItems
  | overrun
  deriving DecidableEq, Repr

/-- Item write + result computation shared by both branches of Can::Add
(the part after a message slot `i` has been selected). -/
def addItem (m : List CANIDMAP) (i : ℕ) (param : ℕ) (offsetBits length : ℤ)
    (gain : ℚ) (offv : ℤ) : List CANIDMAP × AddResult :=
  let msg := m.getD i default
  match scanFree msg.items with
  | none => (m, AddResult.overrun)
  | some j =>
    if (msg.items.getD j default).numBits = NUMBITS_LASTMARKER then
      (m, AddResult.errMaxItems)
    else
      let pos : CANPOS :=
        { mapParam := toUInt 16 (param : ℤ), offset := offv, gain := gain,
          offsetBits := toUInt 8 offsetBits, numBits := toSInt 8 length }
      let m' := m.set i { msg with items := msg.items.set j pos }
      (m', AddResult.ok (activeMsgs m').length)

/-- Can::Add.  `param` is the parameter enum value, `canId`, `offsetBits`
and `length` are C `int`s, `offv` is the `int16_t` additive translation
(already reduced to its 16-bit signed value at the call boundary).
Faithful detail: the second validation compares the *translation*
`offset` against 63, not `offsetBits` (line 670 of `stm32_can.cpp`). -/
def addToMap (m : List CANIDMAP) (param : ℕ) (canId offsetBits length : ℤ)
    (gain : ℚ) (offset : ℤ) : List CANIDMAP × AddResult :=
  let offv := toSInt 16 offset
  if 0x1fffffff < canId then (m, AddResult.errInvalidId)
  else if 63 < offv then (m, AddResult.errInvalidOfs)
  else if 32 < length then (m, AddResult.errInvalidLen)
  else
    let cid := toUInt 32 canId
    match findById m cid with
    | some i => addItem m i param offsetBits length gain offv
    | none =>
      match findById m CANID_UNSET with
      | none => (m, AddResult.errMaxMessages)
      | some i =>
        addItem (m.set i { m.getD i default with canId := cid }) i
          param offsetBits length gain offv

/-- Loop body of Can::CopyIdMapExcept.  The C loop walks the active
messages of `source`, writing kept messages into `dest[i]` and advancing
`i` only when a message is kept; processing the remaining source
messages against `dest` from position `i` onward is the same as this
recursion on the remaining destination suffix.  The returned number
counts the discarded field mappings. -/
def copyGo (param : ℕ) : List CANIDMAP → List CANIDMAP → List CANIDMAP × ℕ
  | [], dest => (dest, 0)
  | c :: rest, dest =>
    let act := activeItems c
    let kept := act.filter (fun q => q.mapParam ≠ param)
    let rem := act.length - kept.length
    if kept.isEmpty then
      let res := copyGo param rest dest
      (res.1, rem + res.2)
    else
      match dest with
      | [] =>
        let res := copyGo param rest []
        (res.1, rem + res.2)
      | slot :: dtail =>
        let slot' : CANIDMAP :=
          { canId := c.canId, items := kept ++ slot.items.drop kept.length }
        let res := copyGo param rest dtail
        (slot' :: res.1, rem + res.2)

/-- Can::CopyIdMapExcept: rebuild `dest` from the active part of
`source`, omitting every field mapping bound to `param` and dropping
messages that lose all their fields. -/
def copyIdMapExcept (source dest : List CANIDMAP) (param : ℕ) : List CANIDMAP × ℕ :=
  copyGo param (activeMsgs source) dest

/-- Can::RemoveFromMap: copy the table into a cleared scratch table
without `param`, clear the original, copy back.  The scratch array is a
stack local; `ClearMap` initializes its `canId`/`numBits` fields, and we
idealize the remaining (never-read) uninitialized bytes as zeros via
`freshMap`.  The returned count is the one from the first pass, as in
the C code. -/
def removeFromMap (canMap : List CANIDMAP) (param : ℕ) : List CANIDMAP × ℕ :=
  let firstPass := copyIdMapExcept canMap freshMap param
  let secondPass := copyIdMapExcept firstPass.1 (clearMap canMap) param
  (secondPass.1, firstPass.2)

/-- Can::Remove: remove `param` from both tables, returning the new
tables and the total removed count. -/
def removeParam (send recv : List CANIDMAP) (param : ℕ) :
    (List CANIDMAP × List CANIDMAP) × ℕ :=
  let s := removeFromMap send param
  let r := removeFromMap recv param
  ((s.1, r.1), s.2 + r.2)

/-- Can::FindMap restricted to one table: first active item bound to
`param`, in message/slot order; returns (canId, offsetBits, numBits,
gain). -/
def findMapIn (m : List CANIDMAP) (param : ℕ) : Option (ℕ × ℕ × ℤ × ℚ) :=
  (activeMsgs m).findSome? (fun c =>
    (activeItems c).findSome? (fun p =>
      if p.mapParam = param then some (c.canId, p.offsetBits, p.numBits, p.gain)
      else none))

/-- Can::FindMap: scan the send table first, then the receive table; the
boolean is the `rx` output (true when found in the receive table). -/
def findMap (send recv : List CANIDMAP) (param : ℕ) :
    Option ((ℕ × ℕ × ℤ × ℚ) × Bool) :=
  match findMapIn send param with
  | some r => some (r, false)
  | none => (findMapIn recv param).map (fun r => (r, true))

/-- External parameter store interface (spec section 6): enumerated
get/set, stable unique-id lookup in both directions, and the parameter
count used as a sub-index bound by the remote protocol. -/
structure ParamEnv where
  getFloat : ℕ → ℚ
  setOk : ℕ → ℕ → Bool
  getVal : ℕ → ℕ
  uidOf : ℕ → ℕ
  numFromId : ℕ → ℕ
  paramLast : ℕ

/-- In-place update of every active field mapping of one message, as the
`forEachPosMap` loops of the Replace functions do: the active prefix is
rewritten, the inactive tail keeps its bytes. -/
def mapActiveItems (f : CANPOS → CANPOS) (c : CANIDMAP) : CANIDMAP :=
  { c with items := (activeItems c).map f ++ c.items.dropWhile (fun p => 0 < p.numBits) }

/-- In-place update of every active field mapping of every active message
of a table (`forEachCanMap` + `forEachPosMap`). -/
def mapActive (f : CANPOS → CANPOS) (m : List CANIDMAP) : List CANIDMAP :=
  (activeMsgs m).map (mapActiveItems f) ++ m.dropWhile (fun c => c.canId < CANID_UNSET)

/-- Can::ReplaceParamEnumByUid: each active mapping's parameter reference
is replaced by its stable unique id, stored through the `uint16_t` field. -/
def replaceEnumByUid (env : ParamEnv) (m : List CANIDMAP) : List CANIDMAP :=
  mapActive (fun p => { p with mapParam := toUInt 16 (env.uidOf p.mapParam : ℤ) }) m

/-- Can::ReplaceParamUidByEnum: each active mapping's stable unique id is
translated back to the enumerated parameter reference. -/
def replaceUidByEnum (env : ParamEnv) (m : List CANIDMAP) : List CANIDMAP :=
  mapActive (fun p => { p with mapParam := toUInt 16 (env.numFromId p.mapParam : ℤ) }) m

/-- The persisted image: both tables (in stable-unique-id form) followed
by the checksum word.  The byte-for-byte flash serialization of the two
struct arrays is injective on their contents, so the image is modelled
as the structured contents; the external CRC peripheral is a function of
the two serialized tables. -/
structure FlashImage where
  sendM : List CANIDMAP
  recvM : List CANIDMAP
  crcWord : ℕ
  deriving DecidableEq, Repr

/-- Can::Save: substitute stable unique ids, write both tables and the
accumulated checksum, then restore enumerated references in memory.
Returns the written image and the in-memory tables after the restore. -/
def save (env : ParamEnv) (crcFn : List CANIDMAP → List CANIDMAP → ℕ)
    (send recv : List CANIDMAP) : FlashImage × (List CANIDMAP × List CANIDMAP) :=
  let s' := replaceEnumByUid env send
  let r' := replaceEnumByUid env recv
  ({ sendM := s', recvM := r', crcWord := crcFn s' r' },
   (replaceUidByEnum env s', replaceUidByEnum env r'))

/-- Can::LoadFromFlash: recompute the checksum over the two stored table
regions and compare with the stored word; on match adopt both tables
(translating stable ids back), on mismatch leave the current in-memory
tables untouched.  The boolean is the C return value (1 adopted /
0 rejected). -/
def loadFromFlash (env : ParamEnv) (crcFn : List CANIDMAP → List CANIDMAP → ℕ)
    (send recv : List CANIDMAP) (img : FlashImage) :
    (List CANIDMAP × List CANIDMAP) × Bool :=
  if img.crcWord = crcFn img.sendM img.recvM then
    ((replaceUidByEnum env img.sendM, replaceUidByEnum env img.recvM), true)
  else
    ((send, recv), false)

/-- struct SENDBUFFER of `stm32_can.h`: one queued frame. -/
structure SENDBUFFER where
  id : ℕ
  len : ℕ
  data0 : ℕ
  data1 : ℕ
  deriving DecidableEq, Repr

/-- Transmit-side state: the pending-frame stack (`sendBuffer` with
`sendCnt`; the top of the stack, index `sendCnt - 1`, is the list head)
and the transmit-complete interrupt enable bit (`CAN_IER_TMEIE`). -/
structure TxState where
  sendBuffer : List SENDBUFFER
  tmeie : Bool
  deriving DecidableEq, Repr

/-- Can::Send: disable the transmit-complete notification, attempt
immediate hardware transmission (`hwAccept` is the `can_transmit`
outcome), on rejection push onto the stack if below `SENDBUFFER_LEN`
(silently dropping otherwise), and re-enable the notification iff the
stack is non-empty. -/
def sendFrame (hwAccept : Bool) (st : TxState) (canId d0 d1 len : ℕ) : TxState :=
  let buf :=
    if ¬hwAccept ∧ st.sendBuffer.length < SENDBUFFER_LEN then
      { id := canId, len := len, data0 := d0, data1 := d1 } :: st.sendBuffer
    else st.sendBuffer
  { sendBuffer := buf, tmeie := decide (buf ≠ []) }

/-- Drain loop of Can::HandleTx: while the stack is non-empty and the
hardware accepts the top frame, pop it.  `hw k` is the outcome of the
`k`-th `can_transmit` attempt.  Returns the remaining stack and the
frames transmitted, in transmission order. -/
def handleTxGo (hw : ℕ → Bool) (k : ℕ) : List SENDBUFFER → List SENDBUFFER × List SENDBUFFER
  | [] => ([], [])
  | f :: rest =>
    if hw k then
      let res := handleTxGo hw (k + 1) rest
      (res.1, f :: res.2)
    else (f :: rest, [])

/-- Can::HandleTx: drain the stack, then disable the transmit-complete
notification exactly if the stack ended up empty. -/
def handleTx (hw : ℕ → Bool) (st : TxState) : TxState × List SENDBUFFER :=
  let res := handleTxGo hw 0 st.sendBuffer
  ({ sendBuffer := res.1, tmeie := if res.1.isEmpty then false else st.tmeie }, res.2)

/-- Left shift of a `uint32_t` as compiled for the ARM Cortex-M target of
this firmware: the barrel shifter uses the low byte of the shift amount
and yields 0 for amounts of 32 or more.  (As ISO C a shift amount ≥ 32
is undefined; this is the semantics of the generated `lsl`.) -/
def armShl32 (x n : ℕ) : ℕ :=
  if 32 ≤ n % 256 then 0 else (x <<< (n % 256)) % 2 ^ 32

/-- The field mask expression `(1 << numBits) - 1` of Can::SendAll and
Can::HandleRx, evaluated in 32-bit arithmetic with the ARM shift
semantics (the `- 1` wraps modulo 2^32 when the shift yields 0). -/
def fieldMask (numBits : ℤ) : ℕ :=
  (armShl32 1 (toUInt 32 numBits) + (2 ^ 32 - 1)) % 2 ^ 32

/-- C conversion `uint32_t val = fval` for a nonnegative value: truncation
toward zero (equal to the floor for nonnegative arguments), wrapped to 32
bits.  A negative or too-large `fval` is undefined behaviour in C; the
claims only evaluate it in range.  Negative inputs are clamped to 0 so
the function is total. -/
def floatToU32 (q : ℚ) : ℕ :=
  if q < 0 then 0 else toUInt 32 ⌊q⌋

/-- Encode step of Can::SendAll for one field mapping: read the bound
parameter, multiply by gain, add the translation, truncate, mask to
`numBits`, and or the result into the 64-bit payload (two 32-bit words)
at `offsetBits`. -/
def encodeItem (env : ParamEnv) (p : CANPOS) (data : ℕ × ℕ) : ℕ × ℕ :=
  let fval := env.getFloat p.mapParam * p.gain + (p.offset : ℚ)
  let val := floatToU32 fval &&& fieldMask p.numBits
  if 31 < p.offsetBits then
    (data.1, data.2 ||| armShl32 val (p.offsetBits - 32))
  else
    (data.1 ||| armShl32 val p.offsetBits, data.2)

/-- Payload of one outbound message in Can::SendAll: all active field
mappings encoded into a zeroed two-word payload. -/
def sendAllMsg (env : ParamEnv) (c : CANIDMAP) : ℕ × ℕ :=
  (activeItems c).foldl (fun d p => encodeItem env p d) (0, 0)

/-- Decode step of Can::HandleRx for one field mapping: extract the
masked bits at `offsetBits`, add the translation, multiply by the gain.
Modelled from the spec: the `s32fp` fixed-point arithmetic
(`FP_FROMINT`, fixed-point add and multiply) lives in `my_math.h`,
which is outside `src/`; the spec describes the decode as
"extract the masked bits, reinterpret as unsigned integer, add
translation, multiply by gain", which is this exact rational value. -/
def decodeItem (p : CANPOS) (data : ℕ × ℕ) : ℚ :=
  let raw :=
    if 31 < p.offsetBits then (data.2 >>> (p.offsetBits - 32)) &&& fieldMask p.numBits
    else (data.1 >>> p.offsetBits) &&& fieldMask p.numBits
  ((raw : ℚ) + (p.offset : ℚ)) * p.gain

/-- struct CAN_SDO of `stm32_can.cpp`: the 8-byte control-channel frame
layout {command, 16-bit index, 8-bit sub-index, 32-bit data}. -/
structure CAN_SDO where
  cmd : ℕ
  index : ℕ
  subIndex : ℕ
  data : ℕ
  deriving DecidableEq, Repr

/-- SDO command and error constants from `stm32_can.cpp`. -/
def SDO_WRITE : ℕ := 0x40

/-- SDO read request command byte. -/
def SDO_READ : ℕ := 0x22

/-- SDO abort command byte. -/
def SDO_ABORT : ℕ := 0x80

/-- SDO write acknowledge command byte. -/
def SDO_WRITE_REPLY : ℕ := 0x23

/-- SDO read acknowledge command byte. -/
def SDO_READ_REPLY : ℕ := 0x43

/-- SDO invalid-index abort code. -/
def SDO_ERR_INVIDX : ℕ := 0x06020000

/-- SDO range-error abort code. -/
def SDO_ERR_RANGE : ℕ := 0x06090030

/-- Outcome of Can::ProcessSDO: the (possibly rewritten) frame sent back,
the identifier it is sent to, and the possibly updated tables. -/
structure SDOResult where
  reply : CAN_SDO
  replyId : ℕ
  sendMap : List CANIDMAP
  recvMap : List CANIDMAP

/-- Whether an Add result is a success (C: `result >= 0`). -/
def AddResult.isOk : AddResult → Bool
  | AddResult.ok _ => true
  | _ => false

/-- Can::ProcessSDO.  Parameter-store writes are represented by the
`setOk` oracle (the store itself is external state); the mapping
configuration branch calls Add on the table selected by bit 14 of the
index.  The reply is always sent to `0x580 + nodeId`. -/
def processSDO (env : ParamEnv) (nodeId : ℕ) (send recv : List CANIDMAP)
    (sdo : CAN_SDO) : SDOResult :=
  if 0x2000 ≤ sdo.index ∧ sdo.index ≤ 0x2001 ∧ sdo.subIndex < env.paramLast then
    let paramIdx := if sdo.index = 0x2001 then env.numFromId sdo.subIndex else sdo.subIndex
    if sdo.cmd = SDO_WRITE then
      if env.setOk paramIdx sdo.data then
        { reply := { sdo with cmd := SDO_WRITE_REPLY },
          replyId := 0x580 + nodeId, sendMap := send, recvMap := recv }
      else
        { reply := { sdo with cmd := SDO_ABORT, data := SDO_ERR_RANGE },
          replyId := 0x580 + nodeId, sendMap := send, recvMap := recv }
    else if sdo.cmd = SDO_READ then
      { reply := { sdo with cmd := SDO_READ_REPLY, data := env.getVal paramIdx },
        replyId := 0x580 + nodeId, sendMap := send, recvMap := recv }
    else
      { reply := sdo, replyId := 0x580 + nodeId, sendMap := send, recvMap := recv }
  else if 0x3000 ≤ sdo.index ∧ sdo.index < 0x4800 ∧ sdo.subIndex < env.paramLast then
    if sdo.cmd = SDO_WRITE then
      let ofs : ℤ := (sdo.data &&& 0xFF : ℕ)
      let len : ℤ := ((sdo.data >>> 8) &&& 0xFF : ℕ)
      let gain : ℚ := (sdo.data >>> 16 : ℕ)
      if sdo.index &&& 0x4000 = 0x4000 then
        let r := addToMap recv sdo.subIndex ((sdo.index &&& 0x7FF : ℕ) : ℤ) ofs len gain 0
        if r.2.isOk then
          { reply := { sdo with cmd := SDO_WRITE_REPLY },
            replyId := 0x580 + nodeId, sendMap := send, recvMap := r.1 }
        else
          { reply := { sdo with cmd := SDO_ABORT, data := SDO_ERR_RANGE },
            replyId := 0x580 + nodeId, sendMap := send, recvMap := r.1 }
      else
        let r := addToMap send sdo.subIndex ((sdo.index &&& 0x7FF : ℕ) : ℤ) ofs len gain 0
        if r.2.isOk then
          { reply := { sdo with cmd := SDO_WRITE_REPLY },
            replyId := 0x580 + nodeId, sendMap := r.1, recvMap := recv }
        else
          { reply := { sdo with cmd := SDO_ABORT, data := SDO_ERR_RANGE },
            replyId := 0x580 + nodeId, sendMap := r.1, recvMap := recv }
    else
      { reply := sdo, replyId := 0x580 + nodeId, sendMap := send, recvMap := recv }
  else
    { reply := { sdo with cmd := SDO_ABORT, data := SDO_ERR_INVIDX },
      replyId := 0x580 + nodeId, sendMap := send, recvMap := recv }

/-- One message's field list is packed: after the first item with
`numBits ≤ 0`, every item has `numBits ≤ 0` (the spec's "numBits > 0 for
all members up to its boundary"). -/
def itemsPacked (c : CANIDMAP) : Prop :=
  ∀ p ∈ c.items.dropWhile (fun q => 0 < q.numBits), p.numBits ≤ 0

/-- A table's active messages are packed from index 0: after the first
slot with `canId = CANID_UNSET` every slot is unused. -/
def msgsPacked (m : List CANIDMAP) : Prop :=
  ∀ c ∈ m.dropWhile (fun c => c.canId < CANID_UNSET), c.canId = CANID_UNSET

/-- The MessageTable invariant of spec section 3: fixed capacity, each
canId a 32-bit value, active messages packed from index 0 with no
duplicate identifier among them, and each message's field list packed. -/
def TableInv (m : List CANIDMAP) : Prop :=
  m.length = MAX_MESSAGES ∧
  msgsPacked m ∧
  ((activeMsgs m).map (fun c => c.canId)).Nodup ∧
  ∀ c ∈ m, c.canId ≤ CANID_UNSET ∧ c.items.length = MAX_ITEMS_PER_MESSAGE ∧ itemsPacked c

/-- Normal-form tables, as produced by Clear followed by valid Adds and
Removes: the table invariant, plus every active message has at least one
active field, the inactive tail of every field list is fully zeroed, and
inactive message slots hold fully zeroed field lists. -/
def NormalTable (m : List CANIDMAP) : Prop :=
  TableInv m ∧
  (∀ c ∈ activeMsgs m, activeItems c ≠ [] ∧
    ∀ p ∈ c.items.dropWhile (fun q => 0 < q.numBits), p.numBits = 0) ∧
  ∀ c ∈ m.dropWhile (fun c => c.canId < CANID_UNSET), ∀ p ∈ c.items, p.numBits = 0

/-- A parameter is absent from a table when no active field mapping of an
active message is bound to it. -/
def absentFrom (m : List CANIDMAP) (param : ℕ) : Prop :=
  ∀ c ∈ activeMsgs m, ∀ p ∈ activeItems c, p.mapParam ≠ param

/-- Number of active field mappings bound to `param`, over the active
messages of a table. -/
def countParam (m : List CANIDMAP) (param : ℕ) : ℕ :=
  ((activeMsgs m).map (fun c => (activeItems c).countP (fun q => q.mapParam = param))).sum

/-- A concrete parameter store in which every lookup is the identity and
every set succeeds; used to evaluate the model at concrete inputs. -/
def envId : ParamEnv :=
  { getFloat := fun _ => 1, setOk := fun _ _ => true, getVal := fun _ => 0,
    uidOf := fun n => n, numFromId := fun n => n, paramLast := 1 }

/-- A concrete parameter store whose single parameter reads 10. -/
def envTen : ParamEnv :=
  { getFloat := fun _ => 10, setOk := fun _ _ => true, getVal := fun _ => 0,
    uidOf := fun n => n, numFromId := fun n => n, paramLast := 1 }

/-- A concrete (degenerate) checksum collaborator. -/
def zeroCrc : List CANIDMAP → List CANIDMAP → ℕ := fun _ _ => 0

/-- Table obtained from the cleared state by ten valid Adds on the same
identifier 1, filling all MAX_ITEMS_PER_MESSAGE field slots of that
message. -/
def fullMsgState : List CANIDMAP :=
  (List.range 10).foldl (fun m k => (addToMap m k 1 0 8 1 0).1) freshMap

/-- Field mapping used by the codec round-trip counterexample: gain 2,
translation 0, offset 0, width 8. -/
def ceSendPos : CANPOS :=
  { mapParam := 0, offset := 0, gain := 2, offsetBits := 0, numBits := 8 }

/-- Control-channel frame with a command byte that is neither the read
nor the write request, on a valid parameter index/sub-index. -/
def ceSDO : CAN_SDO := { cmd := 0, index := 0x2000, subIndex := 0, data := 5 }

/-- A message definition used to build a checksum-consistent flash image
whose send table contains a duplicated identifier. -/
def dupMsg : CANIDMAP :=
  { canId := 5,
    items := { mapParam := 1, offset := 0, gain := 1, offsetBits := 0, numBits := 8 }
      :: List.replicate 9 clearedPos }

/-- Flash image with the identifier 5 stored twice in the send table and
a checksum word matching `zeroCrc`. -/
def dupImg : FlashImage :=
  { sendM := [dupMsg, dupMsg] ++ List.replicate 8 clearedSlot,
    recvM := freshMap, crcWord := 0 }

/-- Small example table: one message (id 1) holding one field mapping for
parameter 7. -/
def exampleTable : List CANIDMAP := (addToMap freshMap 7 1 0 8 1 0).1

/-- Control-channel frame whose index lies outside both recognized
ranges. -/
def ceSDO2 : CAN_SDO := { cmd := 0x40, index := 0x5000, subIndex := 0, data := 0 }

/-- Transmit-side field mapping for the codec round-trip witness:
gain 2, translation 3, offset 4, width 8. -/
def peW : CANPOS := { mapParam := 0, offset := 3, gain := 2, offsetBits := 4, numBits := 8 }

/-- Receive-side field mapping inverting `peW`: gain 1/2, translation
-3, same offset and width. -/
def pdW : CANPOS :=
  { mapParam := 0, offset := -3, gain := (2 : ℚ)⁻¹, offsetBits := 4, numBits := 8 }

/-- Flash image of two empty tables with a checksum word matching
`zeroCrc`. -/
def okImg : FlashImage := { sendM := freshMap, recvM := freshMap, crcWord := 0 }

/-- Flash image of two empty tables whose checksum word does not match
`zeroCrc`. -/
def badImg : FlashImage := { sendM := freshMap, recvM := freshMap, crcWord := 1 }

instance decidableItemsPacked (c : CANIDMAP) : Decidable (itemsPacked c) := by
  unfold itemsPacked; infer_instance

instance decidableMsgsPacked (m : List CANIDMAP) : Decidable (msgsPacked m) := by
  unfold msgsPacked; infer_instance

instance decidableTableInv (m : List CANIDMAP) : Decidable (TableInv m) := by
  unfold TableInv; infer_instance

instance decidableNormalTable (m : List CANIDMAP) : Decidable (NormalTable m) := by
  unfold NormalTable; infer_instance

instance decidableAbsentFrom (m : List CANIDMAP) (param : ℕ) :
    Decidable (absentFrom m param) := by
  unfold absentFrom; infer_instance

section ListHelpers

variable {α : Type _} (p : α → Bool)

theorem takeWhile_append_of_all {l1 : List α} (l2 : List α)
    (h : ∀ x ∈ l1, p x) : (l1 ++ l2).takeWhile p = l1 ++ l2.takeWhile p := by
  induction l1 with
  | nil => simp
  | cons a l ih =>
    have ha : p a := h a (List.mem_cons_self a l)
    simp only [List.cons_append, List.takeWhile_cons, ha, if_true]
    rw [ih fun x hx => h x (List.mem_cons_of_mem a hx)]

theorem dropWhile_append_of_all {l1 : List α} (l2 : List α)
    (h : ∀ x ∈ l1, p x) : (l1 ++ l2).dropWhile p = l2.dropWhile p := by
  induction l1 with
  | nil => simp
  | cons a l ih =>
    have ha : p a := h a (List.mem_cons_self a l)
    simp only [List.cons_append, List.dropWhile_cons, ha, if_true]
    exact ih fun x hx => h x (List.mem_cons_of_mem a hx)

theorem takeWhile_eq_nil_of_all_not {l : List α}
    (h : ∀ x ∈ l, ¬ p x) : l.takeWhile p = [] := by
  cases l with
  | nil => rfl
  | cons a l =>
    have : ¬ p a := h a (List.mem_cons_self a l)
    simp only [List.takeWhile_cons]
    simp [this]

theorem dropWhile_eq_self_of_all_not {l : List α}
    (h : ∀ x ∈ l, ¬ p x) : l.dropWhile p = l := by
  cases l with
  | nil => rfl
  | cons a l =>
    have : ¬ p a := h a (List.mem_cons_self a l)
    simp only [List.dropWhile_cons]
    simp [this]

theorem takeWhile_dropWhile_nil (l : List α) :
    (l.dropWhile p).takeWhile p = [] := by
  induction l with
  | nil => rfl
  | cons a l ih =>
    by_cases h : p a
    · simpa [List.dropWhile_cons, h] using ih
    · simp [List.dropWhile_cons, h, List.takeWhile_cons]

theorem mem_of_mem_takeWhile {l : List α} {x : α}
    (h : x ∈ l.takeWhile p) : x ∈ l :=
  (List.takeWhile_sublist p).subset h

theorem mem_of_mem_dropWhile {l : List α} {x : α}
    (h : x ∈ l.dropWhile p) : x ∈ l :=
  (List.dropWhile_sublist p).subset h

theorem drop_length_takeWhile (l : List α) :
    l.drop (l.takeWhile p).length = l.dropWhile p := by
  induction l with
  | nil => rfl
  | cons a l ih =>
    by_cases h : p a
    · simpa [List.takeWhile_cons, List.dropWhile_cons, h] using ih
    · simp [List.takeWhile_cons, List.dropWhile_cons, h]

theorem set_getD_self {l : List α} {i : ℕ} {d : α} (h : i < l.length) :
    l.set i (l.getD i d) = l := by
  induction l generalizing i with
  | nil => simp at h
  | cons a l ih =>
    cases i with
    | zero => simp
    | succ n =>
      simp only [List.length_cons, Nat.succ_lt_succ_iff] at h
      rw [List.getD_cons_succ]
      show a :: l.set n (l.getD n d) = a :: l
      rw [ih h]

theorem set_append_left_length {l1 l2 : List α} (a : α) :
    (l1 ++ l2).set l1.length a = l1 ++ l2.set 0 a := by
  rw [List.set_append_right _ _ (Nat.le_refl _), Nat.sub_self]

end ListHelpers

section ScanLemmas

/-- Characterization of the free-slot scan: it finds the boundary of the
active prefix when that boundary lies inside the array, and runs off the
array otherwise. -/
theorem scanFree_eq (its : List CANPOS) :
    scanFree its =
      if (its.takeWhile (fun p => 0 < p.numBits)).length < its.length then
        some (its.takeWhile (fun p => 0 < p.numBits)).length
      else none := by
  induction its with
  | nil => rfl
  | cons a l ih =>
    by_cases h : 0 < a.numBits
    · simp only [scanFree, h, if_true, ih, List.takeWhile_cons, List.length_cons]
      simp only [decide_eq_true_eq] at *
      by_cases h2 : (l.takeWhile (fun p => 0 < p.numBits)).length < l.length
      · simp [h, h2, Nat.succ_lt_succ_iff]
      · simp [h, h2, Nat.succ_lt_succ_iff]
    · simp [scanFree, h, List.takeWhile_cons, Nat.succ_pos]

theorem scanFree_eq_none {its : List CANPOS} (h : scanFree its = none) :
    ∀ p ∈ its, 0 < p.numBits := by
  rw [scanFree_eq] at h
  by_cases h2 : (its.takeWhile (fun p => 0 < p.numBits)).length < its.length
  · simp [h2] at h
  · have hlen : (its.takeWhile (fun p => 0 < p.numBits)).length = its.length :=
      Nat.le_antisymm (List.Sublist.length_le (List.takeWhile_sublist _))
        (Nat.le_of_not_lt h2)
    have := List.takeWhile_eq_self_iff.mp
      ((List.takeWhile_sublist (l := its) (fun p => 0 < p.numBits)).eq_of_length hlen)
    intro p hp
    simpa using this p hp

theorem scanFree_eq_some {its : List CANPOS} {j : ℕ} (h : scanFree its = some j) :
    j = (its.takeWhile (fun p => 0 < p.numBits)).length ∧ j < its.length := by
  rw [scanFree_eq] at h
  by_cases h2 : (its.takeWhile (fun p => 0 < p.numBits)).length < its.length
  · simp only [h2, if_true, Option.some_inj] at h
    exact ⟨h.symm, h ▸ h2⟩
  · simp [h2] at h

end ScanLemmas

section FindByIdLemmas

theorem findById_eq_none {m : List CANIDMAP} {id : ℕ} :
    findById m id = none ↔ ∀ c ∈ m, c.canId ≠ id := by
  induction m with
  | nil => simp [findById]
  | cons a l ih =>
    by_cases h : a.canId = id
    · simp [findById, h]
    · simp [findById, h, ih]

theorem findById_some {m : List CANIDMAP} {id : ℕ} {i : ℕ}
    (h : findById m id = some i) :
    i < m.length ∧ (m.getD i default).canId = id ∧
      ∀ j < i, (m.getD j default).canId ≠ id := by
  induction m generalizing i with
  | nil => simp [findById] at h
  | cons a l ih =>
    by_cases ha : a.canId = id
    · simp only [findById, ha, if_true, Option.some_inj] at h
      subst h
      exact ⟨Nat.succ_pos _, ha, fun j hj => absurd hj (Nat.not_lt_zero j)⟩
    · simp only [findById, ha, if_false, Option.map_eq_some'] at h
      obtain ⟨i', hi', rfl⟩ := h
      obtain ⟨h1, h2, h3⟩ := ih hi'
      refine ⟨Nat.succ_lt_succ h1, by simpa using h2, ?_⟩
      intro j hj
      cases j with
      | zero => simpa using ha
      | succ j' =>
        simpa using h3 j' (Nat.lt_of_succ_lt_succ hj)

theorem findById_append_none {l1 l2 : List CANIDMAP} {id : ℕ}
    (h : ∀ c ∈ l1, c.canId ≠ id) :
    findById (l1 ++ l2) id = (findById l2 id).map (· + l1.length) := by
  induction l1 with
  | nil => simp
  | cons a l ih =>
    have ha : a.canId ≠ id := h a (List.mem_cons_self a l)
    have ih' := ih fun c hc => h c (List.mem_cons_of_mem a hc)
    simp only [List.cons_append, findById, ha, if_false, List.append_eq, ih']
    cases findById l2 id with
    | none => rfl
    | some k => simp [List.length_cons]; omega

end FindByIdLemmas

section MoreListHelpers

variable {α : Type _} (p : α → Bool)

theorem dropWhile_idem (l : List α) : (l.dropWhile p).dropWhile p = l.dropWhile p := by
  induction l with
  | nil => rfl
  | cons a l ih =>
    by_cases h : p a
    · simpa [List.dropWhile_cons, h] using ih
    · simp [List.dropWhile_cons, h]

theorem getD_mem' {l : List α} {n : ℕ} (d : α) (h : n < l.length) : l.getD n d ∈ l := by
  induction l generalizing n with
  | nil => simp at h
  | cons a l ih =>
    cases n with
    | zero => simp
    | succ m =>
      simp only [List.length_cons, Nat.succ_lt_succ_iff] at h
      simp only [List.getD_cons_succ]
      exact List.mem_cons_of_mem a (ih h)

theorem getD_set_self {l : List α} {i : ℕ} {a d : α} (h : i < l.length) :
    (l.set i a).getD i d = a := by
  induction l generalizing i with
  | nil => simp at h
  | cons x xs ih =>
    cases i with
    | zero => simp
    | succ n =>
      simp only [List.length_cons, Nat.succ_lt_succ_iff] at h
      simp only [List.set_cons_succ, List.getD_cons_succ]
      exact ih h

theorem length_takeWhile_set {l : List α} {i : ℕ} {a d : α} (hi : i < l.length)
    (h : p a = p (l.getD i d)) :
    ((l.set i a).takeWhile p).length = (l.takeWhile p).length := by
  induction l generalizing i with
  | nil => simp at hi
  | cons x xs ih =>
    cases i with
    | zero =>
      simp only [List.getD_cons_zero] at h
      simp only [List.set_cons_zero, List.takeWhile_cons, h]
      cases hp : p x <;> simp [hp]
    | succ n =>
      simp only [List.length_cons, Nat.succ_lt_succ_iff] at hi
      simp only [List.getD_cons_succ] at h
      simp only [List.set_cons_succ, List.takeWhile_cons]
      cases hp : p x <;> simp [hp, ih hi h]

theorem le_length_takeWhile_of_getD {l : List α} {k : ℕ} {d : α}
    (h : ∀ j < k, p (l.getD j d) = true) (hk : k ≤ l.length) :
    k ≤ (l.takeWhile p).length := by
  induction l generalizing k with
  | nil => simpa using hk
  | cons x xs ih =>
    cases k with
    | zero => exact Nat.zero_le _
    | succ n =>
      have hx : p x = true := by simpa using h 0 (Nat.succ_pos n)
      simp only [List.takeWhile_cons, hx, if_true, List.length_cons]
      refine Nat.succ_le_succ (ih ?_ (by simpa using hk))
      intro j hj
      simpa using h (j + 1) (Nat.succ_lt_succ hj)

theorem length_takeWhile_le_of_getD {l : List α} {k : ℕ} {d : α}
    (h : p (l.getD k d) = false) (hk : k < l.length) :
    (l.takeWhile p).length ≤ k := by
  induction l generalizing k with
  | nil => simp at hk
  | cons x xs ih =>
    cases k with
    | zero =>
      simp only [List.getD_cons_zero] at h
      simp [List.takeWhile_cons, h]
    | succ n =>
      simp only [List.getD_cons_succ] at h
      simp only [List.length_cons, Nat.succ_lt_succ_iff] at hk
      simp only [List.takeWhile_cons]
      cases hp : p x
      · simp
      · simpa using Nat.succ_le_succ (ih h hk)

end MoreListHelpers

section EtaHelpers

theorem pos_numBits_zero_eta {q : CANPOS} (h : q.numBits = 0) :
    ({ q with numBits := 0 } : CANPOS) = q := by
  cases q
  simp_all

theorem slot_eta (c : CANIDMAP) :
    ({ canId := c.canId, items := c.items } : CANIDMAP) = c := by
  cases c
  rfl

/-- A slot whose canId is already unset and whose items all have
`numBits = 0` is a fixed point of the per-slot action of `clearMap`. -/
theorem clearMap_fixed {m : List CANIDMAP}
    (h : ∀ c ∈ m, c.canId = CANID_UNSET ∧ ∀ q ∈ c.items, q.numBits = 0) :
    clearMap m = m := by
  unfold clearMap
  rw [List.map_congr_left, List.map_id]
  intro c hc
  obtain ⟨h1, h2⟩ := h c hc
  have : c.items.map (fun p => { p with numBits := 0 }) = c.items := by
    rw [List.map_congr_left, List.map_id]
    intro q hq
    exact pos_numBits_zero_eta (h2 q hq)
  calc ({ canId := CANID_UNSET, items := c.items.map (fun p => { p with numBits := 0 }) } : CANIDMAP)
      = { canId := c.canId, items := c.items } := by rw [this, h1]
    _ = c := slot_eta c

end EtaHelpers

section CopyGoLemmas

theorem remCount_eq_countP (act : List CANPOS) (param : ℕ) :
    act.length - (act.filter (fun q => q.mapParam ≠ param)).length =
      act.countP (fun q => q.mapParam = param) := by
  induction act with
  | nil => rfl
  | cons a l ih =>
    have hle : (l.filter (fun q => q.mapParam ≠ param)).length ≤ l.length :=
      List.length_filter_le _ l
    by_cases h : a.mapParam = param
    · have h1 : (decide (a.mapParam ≠ param)) = false := by simp [h]
      have h2 : (decide (a.mapParam = param)) = true := by simp [h]
      rw [List.filter_cons, List.countP_cons, h1, h2]
      simp only [Bool.false_eq_true, if_false, if_true, List.length_cons]
      omega
    · have h1 : (decide (a.mapParam ≠ param)) = true := by simp [h]
      have h2 : (decide (a.mapParam = param)) = false := by simp [h]
      rw [List.filter_cons, List.countP_cons, h1, h2]
      simp only [Bool.false_eq_true, if_false, if_true, List.length_cons]
      omega

theorem copyGo_cons_drop {param : ℕ} {c : CANIDMAP} {rest dest : List CANIDMAP}
    (hk : ((activeItems c).filter (fun q => q.mapParam ≠ param)).isEmpty = true) :
    copyGo param (c :: rest) dest =
      ((copyGo param rest dest).1,
        (activeItems c).length -
          ((activeItems c).filter (fun q => q.mapParam ≠ param)).length +
          (copyGo param rest dest).2) := by
  simp only [copyGo]
  rw [if_pos hk]

theorem copyGo_cons_nil {param : ℕ} {c : CANIDMAP} {rest : List CANIDMAP}
    (hk : ((activeItems c).filter (fun q => q.mapParam ≠ param)).isEmpty = false) :
    copyGo param (c :: rest) [] =
      ((copyGo param rest []).1,
        (activeItems c).length -
          ((activeItems c).filter (fun q => q.mapParam ≠ param)).length +
          (copyGo param rest []).2) := by
  simp only [copyGo]
  rw [if_neg (by rw [hk]; exact Bool.false_ne_true)]

theorem copyGo_cons_keep {param : ℕ} {c slot : CANIDMAP} {rest dtail : List CANIDMAP}
    (hk : ((activeItems c).filter (fun q => q.mapParam ≠ param)).isEmpty = false) :
    copyGo param (c :: rest) (slot :: dtail) =
      ({ canId := c.canId,
          items := (activeItems c).filter (fun q => q.mapParam ≠ param) ++
            slot.items.drop ((activeItems c).filter (fun q => q.mapParam ≠ param)).length }
          :: (copyGo param rest dtail).1,
        (activeItems c).length -
          ((activeItems c).filter (fun q => q.mapParam ≠ param)).length +
          (copyGo param rest dtail).2) := by
  simp only [copyGo]
  rw [if_neg (by rw [hk]; exact Bool.false_ne_true)]

theorem copyGo_snd (param : ℕ) (src : List CANIDMAP) :
    ∀ dest, (copyGo param src dest).2 =
      (src.map (fun c => (activeItems c).countP (fun q => q.mapParam = param))).sum := by
  induction src with
  | nil => intro dest; rfl
  | cons c rest ih =>
    intro dest
    have hrem := remCount_eq_countP (activeItems c) param
    cases hk : ((activeItems c).filter (fun q => q.mapParam ≠ param)).isEmpty with
    | true => rw [copyGo_cons_drop hk, List.map_cons, List.sum_cons, ih dest, hrem]
    | false =>
      cases dest with
      | nil => rw [copyGo_cons_nil hk, List.map_cons, List.sum_cons, ih [], hrem]
      | cons slot dtail =>
        rw [copyGo_cons_keep hk, List.map_cons, List.sum_cons, ih dtail, hrem]

theorem copyGo_length (param : ℕ) (src : List CANIDMAP) :
    ∀ dest, (copyGo param src dest).1.length = dest.length := by
  induction src with
  | nil => intro dest; rfl
  | cons c rest ih =>
    intro dest
    cases hk : ((activeItems c).filter (fun q => q.mapParam ≠ param)).isEmpty with
    | true => rw [copyGo_cons_drop hk]; exact ih dest
    | false =>
      cases dest with
      | nil => rw [copyGo_cons_nil hk]; simpa using ih []
      | cons slot dtail =>
        rw [copyGo_cons_keep hk]
        simp only [List.length_cons, ih dtail]

theorem copyGo_absent (param : ℕ) (src : List CANIDMAP) :
    ∀ dest, (∀ s ∈ dest, ∀ q ∈ s.items, q.numBits = 0) →
      ∀ c ∈ activeMsgs (copyGo param src dest).1, ∀ q ∈ activeItems c, q.mapParam ≠ param := by
  induction src with
  | nil =>
    intro dest hd c hc q hq
    have hcd : c ∈ dest := mem_of_mem_takeWhile _ hc
    have h0 : q.numBits = 0 := hd c hcd q (mem_of_mem_takeWhile _ hq)
    have hqpos := List.mem_takeWhile_imp hq
    simp [h0] at hqpos
  | cons c rest ih =>
    intro dest hd x hx q hq
    cases hk : ((activeItems c).filter (fun q => q.mapParam ≠ param)).isEmpty with
    | true =>
      rw [copyGo_cons_drop hk] at hx
      exact ih dest hd x hx q hq
    | false =>
      cases dest with
      | nil =>
        rw [copyGo_cons_nil hk] at hx
        exact ih [] (by simp) x hx q hq
      | cons slot dtail =>
        rw [copyGo_cons_keep hk] at hx
        unfold activeMsgs at hx
        rw [List.takeWhile_cons] at hx
        by_cases hpred : c.canId < CANID_UNSET
        · simp only [hpred, decide_True, if_true, List.mem_cons] at hx
          rcases hx with hx | hx
          · subst hx
            have hqi := mem_of_mem_takeWhile _ hq
            simp only [List.mem_append] at hqi
            rcases hqi with hqi | hqi
            · have := List.mem_filter.mp hqi
              simpa using this.2
            · have h0 : q.numBits = 0 :=
                hd slot (List.mem_cons_self slot dtail) q (List.drop_subset _ _ hqi)
              have hqpos := List.mem_takeWhile_imp hq
              simp [h0] at hqpos
          · exact ih dtail (fun s hs => hd s (List.mem_cons_of_mem slot hs)) x hx q hq
        · simp [hpred] at hx

theorem copyGo_tableFacts (param : ℕ) (src : List CANIDMAP) :
    ∀ dest, (∀ c ∈ src, c.canId < CANID_UNSET ∧ c.items.length = MAX_ITEMS_PER_MESSAGE) →
      (∀ s ∈ dest, s.canId = CANID_UNSET ∧ (∀ q ∈ s.items, q.numBits = 0) ∧
        s.items.length = MAX_ITEMS_PER_MESSAGE) →
      msgsPacked (copyGo param src dest).1 ∧
      (∀ c ∈ (copyGo param src dest).1, c.canId ≤ CANID_UNSET ∧
        c.items.length = MAX_ITEMS_PER_MESSAGE ∧ itemsPacked c) ∧
      ((activeMsgs (copyGo param src dest).1).map (fun c => c.canId)).Sublist
        (src.map (fun c => c.canId)) := by
  induction src with
  | nil =>
    intro dest hs hd
    refine ⟨?_, ?_, ?_⟩
    · intro c hc
      rw [dropWhile_eq_self_of_all_not _ (fun s hsm => by simp [(hd s hsm).1])] at hc
      exact (hd c hc).1
    · intro c hc
      refine ⟨(hd c hc).1.le, (hd c hc).2.2, ?_⟩
      intro q hq
      have := (hd c hc).2.1 q (mem_of_mem_dropWhile _ hq)
      omega
    · have : activeMsgs (copyGo param [] dest).1 = [] := by
        refine takeWhile_eq_nil_of_all_not _ (fun s hsm => by simp [(hd s hsm).1])
      simp [this]
  | cons c rest ih =>
    intro dest hs hd
    have hsrest : ∀ x ∈ rest, x.canId < CANID_UNSET ∧
        x.items.length = MAX_ITEMS_PER_MESSAGE :=
      fun x hx => hs x (List.mem_cons_of_mem c hx)
    have hc := hs c (List.mem_cons_self c rest)
    cases hk : ((activeItems c).filter (fun q => q.mapParam ≠ param)).isEmpty with
    | true =>
      rw [copyGo_cons_drop hk]
      obtain ⟨h1, h2, h3⟩ := ih dest hsrest hd
      exact ⟨h1, h2, h3.cons _⟩
    | false =>
      cases dest with
      | nil =>
        rw [copyGo_cons_nil hk]
        obtain ⟨h1, h2, h3⟩ := ih [] hsrest (by simp)
        exact ⟨h1, h2, h3.cons _⟩
      | cons slot dtail =>
        rw [copyGo_cons_keep hk]
        have hdtail : ∀ s ∈ dtail, s.canId = CANID_UNSET ∧ (∀ q ∈ s.items, q.numBits = 0) ∧
            s.items.length = MAX_ITEMS_PER_MESSAGE :=
          fun s hsm => hd s (List.mem_cons_of_mem slot hsm)
        have hslot := hd slot (List.mem_cons_self slot dtail)
        obtain ⟨h1, h2, h3⟩ := ih dtail hsrest hdtail
        have hkeptlen : ((activeItems c).filter (fun q => q.mapParam ≠ param)).length ≤
            slot.items.length := by
          calc ((activeItems c).filter (fun q => q.mapParam ≠ param)).length
              ≤ (activeItems c).length := List.length_filter_le _ _
            _ ≤ c.items.length := (List.takeWhile_sublist _).length_le
            _ = MAX_ITEMS_PER_MESSAGE := hc.2
            _ = slot.items.length := hslot.2.2.symm
        have hkeptpos : ∀ q ∈ (activeItems c).filter (fun q => q.mapParam ≠ param),
            (fun q : CANPOS => decide (0 < q.numBits)) q = true := by
          intro q hq
          simpa using List.mem_takeWhile_imp (List.mem_filter.mp hq).1
        refine ⟨?_, ?_, ?_⟩
        · intro x hx
          simp only [msgsPacked] at hx ⊢
          rw [List.dropWhile_cons] at hx
          simp only [hc.1, decide_True, if_true] at hx
          exact h1 x hx
        · intro x hx
          rcases List.mem_cons.mp hx with hx | hx
          · subst hx
            refine ⟨hc.1.le, ?_, ?_⟩
            · simp only [List.length_append, List.length_drop]
              omega
            · intro q hq
              replace hq : q ∈ ((activeItems c).filter (fun q => q.mapParam ≠ param) ++
                  slot.items.drop
                    ((activeItems c).filter (fun q => q.mapParam ≠ param)).length).dropWhile
                      (fun q => 0 < q.numBits) := hq
              rw [dropWhile_append_of_all _ _ hkeptpos] at hq
              have hqmem : q ∈ slot.items.drop
                  ((activeItems c).filter (fun q => q.mapParam ≠ param)).length :=
                mem_of_mem_dropWhile _ hq
              have := hslot.2.1 q (List.drop_subset _ _ hqmem)
              omega
          · exact h2 x hx
        · unfold activeMsgs
          rw [List.takeWhile_cons]
          simp only [hc.1, decide_True, if_true, List.map_cons]
          exact h3.cons₂ _

theorem copyGo_ident (param : ℕ) (act : List CANIDMAP) :
    ∀ (d1 dtail : List CANIDMAP),
      (∀ c ∈ act, c.canId < CANID_UNSET ∧ activeItems c ≠ [] ∧
        (∀ q ∈ c.items.dropWhile (fun q => 0 < q.numBits), q.numBits = 0) ∧
        (∀ q ∈ activeItems c, q.mapParam ≠ param)) →
      (∀ s ∈ d1, s.canId = CANID_UNSET ∧ ∀ q ∈ s.items, q.numBits = 0) →
      act.length ≤ d1.length →
      (∀ s ∈ dtail, s.canId = CANID_UNSET ∧ ∀ q ∈ s.items, q.numBits = 0) →
      (copyGo param (activeMsgs (copyGo param act d1).1) (clearMap act ++ dtail)).1 =
        act ++ dtail := by
  induction act with
  | nil =>
    intro d1 dtail h1 h2 h3 h4
    have hempty : activeMsgs (copyGo param [] d1).1 = [] :=
      takeWhile_eq_nil_of_all_not _ (fun s hsm => by simp [(h2 s hsm).1])
    rw [hempty]
    rfl
  | cons c rest ih =>
    intro d1 dtail h1 h2 h3 h4
    obtain ⟨hcid, hne, htail0, habs⟩ := h1 c (List.mem_cons_self c rest)
    cases d1 with
    | nil => simp at h3
    | cons s d1t =>
      have hs := h2 s (List.mem_cons_self s d1t)
      have hkeq : (activeItems c).filter (fun q => q.mapParam ≠ param) = activeItems c := by
        refine List.filter_eq_self.mpr ?_
        intro q hq
        simpa using habs q hq
      have hk : ((activeItems c).filter (fun q => q.mapParam ≠ param)).isEmpty = false := by
        rw [hkeq]
        cases hai : activeItems c with
        | nil => exact absurd hai hne
        | cons a l => rfl
      rw [copyGo_cons_keep hk, hkeq]
      have hactive_eq : activeMsgs
          ({ canId := c.canId, items := activeItems c ++ s.items.drop (activeItems c).length }
            :: (copyGo param rest d1t).1) =
          { canId := c.canId, items := activeItems c ++ s.items.drop (activeItems c).length }
            :: activeMsgs (copyGo param rest d1t).1 := by
        unfold activeMsgs
        rw [List.takeWhile_cons]
        simp [hcid]
      rw [hactive_eq]
      have hclear : clearMap (c :: rest) ++ dtail =
          ({ canId := CANID_UNSET, items := c.items.map (fun p => { p with numBits := 0 }) }
            : CANIDMAP) :: (clearMap rest ++ dtail) := rfl
      rw [hclear]
      have hitems' : activeItems ({ canId := c.canId, items := activeItems c ++ s.items.drop (activeItems c).length } : CANIDMAP) = activeItems c := by
        unfold activeItems
        show (activeItems c ++ s.items.drop (activeItems c).length).takeWhile _ = _
        rw [takeWhile_append_of_all _ _
          (fun q hq => by simpa using List.mem_takeWhile_imp hq)]
        rw [takeWhile_eq_nil_of_all_not _
          (fun q hq => by simp [hs.2 q (List.drop_subset _ _ hq)])]
        simp [activeItems]
      have hkeq' : (activeItems ({ canId := c.canId, items := activeItems c ++ s.items.drop (activeItems c).length } : CANIDMAP)).filter (fun q => q.mapParam ≠ param) = activeItems c := by
        rw [hitems', hkeq]
      have hk' : ((activeItems ({ canId := c.canId, items := activeItems c ++ s.items.drop (activeItems c).length } : CANIDMAP)).filter (fun q => q.mapParam ≠ param)).isEmpty = false := by
        rw [hkeq']
        cases hai : activeItems c with
        | nil => exact absurd hai hne
        | cons a l => rfl
      rw [copyGo_cons_keep hk', hkeq']
      have hheaditems : activeItems c ++ (({ canId := CANID_UNSET, items := c.items.map (fun p => { p with numBits := 0 }) } : CANIDMAP).items).drop (activeItems c).length = c.items := by
        show activeItems c ++ (c.items.map (fun p => { p with numBits := 0 })).drop
          (activeItems c).length = c.items
        rw [(List.map_drop _ _ _).symm]
        have hdrop : c.items.drop (activeItems c).length =
            c.items.dropWhile (fun q => 0 < q.numBits) := drop_length_takeWhile _ _
        rw [hdrop]
        have hmapid : (c.items.dropWhile (fun q => 0 < q.numBits)).map
            (fun p => { p with numBits := 0 }) =
            c.items.dropWhile (fun q => 0 < q.numBits) := by
          rw [List.map_congr_left, List.map_id]
          intro q hq
          exact pos_numBits_zero_eta (htail0 q hq)
        rw [hmapid]
        exact List.takeWhile_append_dropWhile _ _
      have hrest : ∀ x ∈ rest, x.canId < CANID_UNSET ∧ activeItems x ≠ [] ∧
          (∀ q ∈ x.items.dropWhile (fun q => 0 < q.numBits), q.numBits = 0) ∧
          (∀ q ∈ activeItems x, q.mapParam ≠ param) :=
        fun x hx => h1 x (List.mem_cons_of_mem c hx)
      have h2t : ∀ s' ∈ d1t, s'.canId = CANID_UNSET ∧ ∀ q ∈ s'.items, q.numBits = 0 :=
        fun s' hs' => h2 s' (List.mem_cons_of_mem s hs')
      have h3t : rest.length ≤ d1t.length := by
        simpa using Nat.le_of_succ_le_succ (by simpa using h3)
      have := ih d1t dtail hrest h2t h3t h4
      simp only [this, hheaditems]
      rw [slot_eta c]
      rfl

end CopyGoLemmas

section RemoveLemmas

theorem freshMap_cleared :
    ∀ s ∈ freshMap, s.canId = CANID_UNSET ∧ (∀ q ∈ s.items, q.numBits = 0) ∧
      s.items.length = MAX_ITEMS_PER_MESSAGE := by decide

theorem clearMap_cleared (m : List CANIDMAP) :
    ∀ s ∈ clearMap m, s.canId = CANID_UNSET ∧ ∀ q ∈ s.items, q.numBits = 0 := by
  intro s hsm
  obtain ⟨c, _, rfl⟩ := List.mem_map.mp hsm
  refine ⟨rfl, ?_⟩
  intro q hq
  obtain ⟨q0, _, rfl⟩ := List.mem_map.mp hq
  rfl

theorem clearMap_append (a b : List CANIDMAP) :
    clearMap (a ++ b) = clearMap a ++ clearMap b := List.map_append _ a b

theorem removeFromMap_count (m : List CANIDMAP) (p : ℕ) :
    (removeFromMap m p).2 = countParam m p := by
  unfold removeFromMap copyIdMapExcept countParam
  exact copyGo_snd p (activeMsgs m) freshMap

theorem findMapIn_eq_none {m : List CANIDMAP} {p : ℕ}
    (h : ∀ c ∈ activeMsgs m, ∀ q ∈ activeItems c, q.mapParam ≠ p) :
    findMapIn m p = none := by
  unfold findMapIn
  rw [List.findSome?_eq_none_iff]
  intro c hc
  rw [List.findSome?_eq_none_iff]
  intro q hq
  simp [h c hc q hq]

theorem removeFromMap_absent (m : List CANIDMAP) (p : ℕ) :
    findMapIn (removeFromMap m p).1 p = none := by
  refine findMapIn_eq_none ?_
  unfold removeFromMap copyIdMapExcept
  exact copyGo_absent p _ (clearMap m) (fun s hsm => (clearMap_cleared m s hsm).2)

theorem removeFromMap_inv {m : List CANIDMAP} (p : ℕ) (h : TableInv m) :
    TableInv (removeFromMap m p).1 := by
  obtain ⟨hlen, hpack, hnodup, hmem⟩ := h
  have hsrc1 : ∀ c ∈ activeMsgs m, c.canId < CANID_UNSET ∧
      c.items.length = MAX_ITEMS_PER_MESSAGE := by
    intro c hc
    refine ⟨by simpa using List.mem_takeWhile_imp hc, (hmem c (mem_of_mem_takeWhile _ hc)).2.1⟩
  have hfacts1 := copyGo_tableFacts p (activeMsgs m) freshMap hsrc1 freshMap_cleared
  have hsrc2 : ∀ c ∈ activeMsgs (copyGo p (activeMsgs m) freshMap).1,
      c.canId < CANID_UNSET ∧ c.items.length = MAX_ITEMS_PER_MESSAGE := by
    intro c hc
    refine ⟨by simpa using List.mem_takeWhile_imp hc, ?_⟩
    exact (hfacts1.2.1 c (mem_of_mem_takeWhile _ hc)).2.1
  have hdest2 : ∀ s ∈ clearMap m, s.canId = CANID_UNSET ∧ (∀ q ∈ s.items, q.numBits = 0) ∧
      s.items.length = MAX_ITEMS_PER_MESSAGE := by
    intro s hsm
    obtain ⟨c, hcm, rfl⟩ := List.mem_map.mp hsm
    refine ⟨(clearMap_cleared m _ hsm).1, (clearMap_cleared m _ hsm).2, ?_⟩
    simpa using (hmem c hcm).2.1
  have hfacts2 := copyGo_tableFacts p (activeMsgs (copyGo p (activeMsgs m) freshMap).1)
    (clearMap m) hsrc2 hdest2
  refine ⟨?_, hfacts2.1, ?_, fun c hc => hfacts2.2.1 c hc⟩
  · unfold removeFromMap copyIdMapExcept
    rw [copyGo_length]
    unfold clearMap
    rw [List.length_map]
    exact hlen
  · have hsub2 := hfacts2.2.2
    have hsub1 := hfacts1.2.2
    exact hnodup.sublist (hsub2.trans hsub1)

theorem removeFromMap_ident {m : List CANIDMAP} {p : ℕ}
    (hn : NormalTable m) (habs : absentFrom m p) :
    removeFromMap m p = (m, 0) := by
  obtain ⟨⟨hlen, hpack, hnodup, hmem⟩, hact, hinact⟩ := hn
  have hm_decomp : activeMsgs m ++ m.dropWhile (fun c => c.canId < CANID_UNSET) = m :=
    List.takeWhile_append_dropWhile _ _
  have hdrop_cleared : ∀ s ∈ m.dropWhile (fun c => c.canId < CANID_UNSET),
      s.canId = CANID_UNSET ∧ ∀ q ∈ s.items, q.numBits = 0 := by
    intro s hsm
    exact ⟨hpack s hsm, hinact s hsm⟩
  have hclear_drop : clearMap (m.dropWhile (fun c => c.canId < CANID_UNSET)) =
      m.dropWhile (fun c => c.canId < CANID_UNSET) :=
    clearMap_fixed hdrop_cleared
  have h1 : ∀ c ∈ activeMsgs m, c.canId < CANID_UNSET ∧ activeItems c ≠ [] ∧
      (∀ q ∈ c.items.dropWhile (fun q => 0 < q.numBits), q.numBits = 0) ∧
      (∀ q ∈ activeItems c, q.mapParam ≠ p) := by
    intro c hc
    exact ⟨by simpa using List.mem_takeWhile_imp hc, (hact c hc).1, (hact c hc).2, habs c hc⟩
  have h3 : (activeMsgs m).length ≤ freshMap.length := by
    have : (activeMsgs m).length ≤ m.length := (List.takeWhile_sublist _).length_le
    simpa [freshMap, hlen, MAX_MESSAGES] using this
  have hident := copyGo_ident p (activeMsgs m) freshMap
    (clearMap (m.dropWhile (fun c => c.canId < CANID_UNSET)))
    h1 (fun s hsm => ⟨(freshMap_cleared s hsm).1, (freshMap_cleared s hsm).2.1⟩) h3
    (fun s hsm => by
      rw [hclear_drop] at hsm
      exact hdrop_cleared s hsm)
  have hcount : (removeFromMap m p).2 = 0 := by
    rw [removeFromMap_count]
    unfold countParam
    refine List.sum_eq_zero ?_
    intro x hx
    obtain ⟨c, hc, rfl⟩ := List.mem_map.mp hx
    rw [List.countP_eq_zero]
    intro q hq
    simpa using habs c hc q hq
  have hfst : (removeFromMap m p).1 = m := by
    unfold removeFromMap copyIdMapExcept
    have hdest_eq : clearMap m = clearMap (activeMsgs m) ++
        clearMap (m.dropWhile (fun c => c.canId < CANID_UNSET)) := by
      rw [← clearMap_append, hm_decomp]
    rw [hdest_eq]
    rw [hident, hclear_drop, hm_decomp]
  calc removeFromMap m p = ((removeFromMap m p).1, (removeFromMap m p).2) := rfl
    _ = (m, 0) := by rw [hcount, hfst]

end RemoveLemmas

section CodecHelpers

theorem floatToU32_two : floatToU32 2 = 2 := by
  norm_num [floatToU32, toUInt]
  decide

theorem fieldMask_ofNat (k : ℕ) (hk1 : 1 ≤ k) (hk2 : k ≤ 32) :
    fieldMask (k : ℤ) = 2 ^ k - 1 := by
  interval_cases k <;> decide

end CodecHelpers

section TxHelpers

theorem handleTxGo_spec (hw : ℕ → Bool) (buf : List SENDBUFFER) :
    ∀ k : ℕ, ∃ n, n ≤ buf.length ∧
      handleTxGo hw k buf = (buf.drop n, buf.take n) ∧
      (∀ i < n, hw (k + i) = true) ∧
      (buf.drop n ≠ [] → hw (k + n) = false) := by
  induction buf with
  | nil =>
    intro k
    exact ⟨0, Nat.le_refl 0, rfl, fun i hi => absurd hi (Nat.not_lt_zero i),
      fun h => absurd rfl h⟩
  | cons f rest ih =>
    intro k
    cases hhw : hw k with
    | true =>
      obtain ⟨n, hn, heq, hacc, hrej⟩ := ih (k + 1)
      refine ⟨n + 1, Nat.succ_le_succ hn, ?_, ?_, ?_⟩
      · simp [handleTxGo, hhw, heq]
      · intro i hi
        cases i with
        | zero => simpa using hhw
        | succ j =>
          have := hacc j (Nat.lt_of_succ_lt_succ hi)
          rw [show k + (j + 1) = k + 1 + j by omega]
          exact this
      · intro hne
        rw [show k + (n + 1) = k + 1 + n by omega]
        exact hrej (by simpa using hne)
    | false =>
      exact ⟨0, Nat.zero_le _, by simp [handleTxGo, hhw],
        fun i hi => absurd hi (Nat.not_lt_zero i), fun _ => by simpa using hhw⟩

theorem armShl32_extract {v O W : ℕ} (hvW : v < 2 ^ W) (hW1 : 1 ≤ W) (hOW : O + W ≤ 32) :
    (armShl32 v O >>> O) &&& (2 ^ W - 1) = v := by
  have hO31 : O < 32 := by omega
  unfold armShl32
  rw [Nat.mod_eq_of_lt (by omega : O < 256), if_neg (by omega)]
  have hlt : v * 2 ^ O < 2 ^ 32 := by
    calc v * 2 ^ O < 2 ^ W * 2 ^ O := by
          exact Nat.mul_lt_mul_of_lt_of_le hvW (Nat.le_refl _) (Nat.pos_pow_of_pos O (by norm_num))
      _ = 2 ^ (W + O) := by rw [pow_add]
      _ ≤ 2 ^ 32 := Nat.pow_le_pow_right (by norm_num) (by omega)
  rw [Nat.shiftLeft_eq, Nat.mod_eq_of_lt hlt, Nat.shiftRight_eq_div_pow,
    Nat.mul_div_cancel _ (Nat.pos_pow_of_pos O (by norm_num)),
    Nat.and_pow_two_sub_one_eq_mod, Nat.mod_eq_of_lt hvW]

end TxHelpers

section AddLemmas

theorem msgsPacked_cons_active {x : CANIDMAP} {xs : List CANIDMAP}
    (hp : x.canId < CANID_UNSET) : msgsPacked (x :: xs) ↔ msgsPacked xs := by
  unfold msgsPacked
  rw [List.dropWhile_cons]
  simp [hp]

theorem msgsPacked_cons_inactive {x : CANIDMAP} {xs : List CANIDMAP}
    (hp : ¬ x.canId < CANID_UNSET) :
    msgsPacked (x :: xs) ↔ ∀ c ∈ x :: xs, c.canId = CANID_UNSET := by
  unfold msgsPacked
  rw [List.dropWhile_cons]
  simp [hp]

theorem active_ids_set_same {m : List CANIDMAP} {i : ℕ} {c' : CANIDMAP}
    (hi : i < m.length) (hc : c'.canId = (m.getD i default).canId) :
    (activeMsgs (m.set i c')).map (fun c => c.canId) =
      (activeMsgs m).map (fun c => c.canId) := by
  induction m generalizing i with
  | nil => simp at hi
  | cons x xs ih =>
    cases i with
    | zero =>
      simp only [List.getD_cons_zero] at hc
      show ((c' :: xs).takeWhile (fun c => c.canId < CANID_UNSET)).map (fun c => c.canId) =
        ((x :: xs).takeWhile (fun c => c.canId < CANID_UNSET)).map (fun c => c.canId)
      rw [List.takeWhile_cons, List.takeWhile_cons, hc]
      by_cases hp : x.canId < CANID_UNSET <;> simp [hp, hc]
    | succ n =>
      simp only [List.length_cons, Nat.succ_lt_succ_iff] at hi
      simp only [List.getD_cons_succ] at hc
      have ihh := ih hi hc
      unfold activeMsgs at ihh
      show ((x :: xs.set n c').takeWhile (fun c => c.canId < CANID_UNSET)).map
          (fun c => c.canId) =
        ((x :: xs).takeWhile (fun c => c.canId < CANID_UNSET)).map (fun c => c.canId)
      rw [List.takeWhile_cons, List.takeWhile_cons]
      by_cases hp : x.canId < CANID_UNSET <;> simp [hp, ihh]

theorem msgsPacked_set_same {m : List CANIDMAP} {i : ℕ} {c' : CANIDMAP}
    (hi : i < m.length) (hc : c'.canId = (m.getD i default).canId)
    (h : msgsPacked m) : msgsPacked (m.set i c') := by
  induction m generalizing i with
  | nil => simp at hi
  | cons x xs ih =>
    cases i with
    | zero =>
      simp only [List.getD_cons_zero] at hc
      rw [List.set_cons_zero]
      by_cases hp : x.canId < CANID_UNSET
      · rw [msgsPacked_cons_active (hc ▸ hp)]
        exact (msgsPacked_cons_active hp).mp h
      · rw [msgsPacked_cons_inactive (by rw [hc]; exact hp)]
        have hall := (msgsPacked_cons_inactive hp).mp h
        intro c hcm
        rcases List.mem_cons.mp hcm with hceq | hcm
        · rw [hceq, hc]
          exact hall x (List.mem_cons_self x xs)
        · exact hall c (List.mem_cons_of_mem x hcm)
    | succ n =>
      simp only [List.length_cons, Nat.succ_lt_succ_iff] at hi
      simp only [List.getD_cons_succ] at hc
      rw [List.set_cons_succ]
      by_cases hp : x.canId < CANID_UNSET
      · rw [msgsPacked_cons_active hp]
        exact ih hi hc ((msgsPacked_cons_active hp).mp h)
      · rw [msgsPacked_cons_inactive hp]
        have hall := (msgsPacked_cons_inactive hp).mp h
        intro c hcm
        rcases List.mem_cons.mp hcm with hceq | hcm
        · rw [hceq]
          exact hall x (List.mem_cons_self x xs)
        · rcases List.mem_or_eq_of_mem_set hcm with hcm | hceq
          · exact hall c (List.mem_cons_of_mem x hcm)
          · rw [hceq, hc]
            exact hall _ (List.mem_cons_of_mem x (getD_mem' default hi))

theorem itemsPacked_set_scan {its : List CANPOS} {j : ℕ} {pos : CANPOS}
    (hp : ∀ q ∈ its.dropWhile (fun q => 0 < q.numBits), q.numBits ≤ 0)
    (hj : scanFree its = some j) :
    ∀ q ∈ (its.set j pos).dropWhile (fun q => 0 < q.numBits), q.numBits ≤ 0 := by
  obtain ⟨hjeq, hjlt⟩ := scanFree_eq_some hj
  have hdecomp : its.takeWhile (fun q => 0 < q.numBits) ++
      its.dropWhile (fun q => 0 < q.numBits) = its := List.takeWhile_append_dropWhile _ _
  have hlens : (its.takeWhile (fun q => 0 < q.numBits)).length +
      (its.dropWhile (fun q => 0 < q.numBits)).length = its.length := by
    rw [← List.length_append, hdecomp]
  have hdne : its.dropWhile (fun q => 0 < q.numBits) ≠ [] := by
    intro hnil
    rw [hnil] at hlens
    simp at hlens
    omega
  obtain ⟨b, R', hR⟩ := List.exists_cons_of_ne_nil hdne
  have hset : its.set j pos =
      its.takeWhile (fun q => 0 < q.numBits) ++ pos :: R' := by
    calc its.set j pos
        = (its.takeWhile (fun q => 0 < q.numBits) ++
            its.dropWhile (fun q => 0 < q.numBits)).set
            (its.takeWhile (fun q => 0 < q.numBits)).length pos := by rw [hdecomp, hjeq]
      _ = its.takeWhile (fun q => 0 < q.numBits) ++
          (its.dropWhile (fun q => 0 < q.numBits)).set 0 pos := set_append_left_length pos
      _ = its.takeWhile (fun q => 0 < q.numBits) ++ pos :: R' := by
          rw [hR, List.set_cons_zero]
  rw [hset]

  intro q hq
  rw [dropWhile_append_of_all _ _
    (fun y hy => by have hres := List.mem_takeWhile_imp hy; exact hres)] at hq
  have hR'le : ∀ y ∈ R', y.numBits ≤ 0 := by
    intro y hy
    exact hp y (hR ▸ List.mem_cons_of_mem b hy)
  rw [List.dropWhile_cons] at hq
  by_cases hpos : 0 < pos.numBits
  · simp only [hpos, decide_True, if_true] at hq
    exact hR'le q (mem_of_mem_dropWhile _ hq)
  · simp only [hpos, decide_False, if_false] at hq
    rcases List.mem_cons.mp hq with rfl | hq
    · omega
    · exact hR'le q hq

theorem findById_unset_eq {m : List CANIDMAP} (hpack : msgsPacked m)
    (hbound : ∀ c ∈ m, c.canId ≤ CANID_UNSET) {k : ℕ}
    (h : findById m CANID_UNSET = some k) : k = (activeMsgs m).length := by
  obtain ⟨hk1, hk2, hk3⟩ := findById_some h
  have hle : (activeMsgs m).length ≤ k := by
    have hfalse : (fun c : CANIDMAP => decide (c.canId < CANID_UNSET)) (m.getD k default) =
        false := by
      simp only [decide_eq_false_iff_not, not_lt]
      rw [hk2]
    exact length_takeWhile_le_of_getD _ hfalse hk1
  have hge : k ≤ (activeMsgs m).length := by
    refine le_length_takeWhile_of_getD _ (d := default) ?_ (Nat.le_of_lt hk1)
    intro j hj
    have hne := hk3 j hj
    have hmem := getD_mem' (l := m) default (Nat.lt_trans hj hk1)
    have := hbound _ hmem
    simp only [decide_eq_true_eq]
    omega
  omega

theorem packed_decomp {m : List CANIDMAP} (hpack : msgsPacked m)
    (hlt : (activeMsgs m).length < m.length) :
    ∃ u B, m = activeMsgs m ++ u :: B ∧ u.canId = CANID_UNSET ∧
      ∀ c ∈ B, c.canId = CANID_UNSET := by
  have hdecomp : activeMsgs m ++ m.dropWhile (fun c => c.canId < CANID_UNSET) = m :=
    List.takeWhile_append_dropWhile _ _
  have hlens : (activeMsgs m).length +
      (m.dropWhile (fun c => c.canId < CANID_UNSET)).length = m.length := by
    rw [← List.length_append, hdecomp]
  have hdne : m.dropWhile (fun c => c.canId < CANID_UNSET) ≠ [] := by
    intro hnil
    rw [hnil] at hlens
    simp at hlens
    omega
  obtain ⟨u, B, hR⟩ := List.exists_cons_of_ne_nil hdne
  refine ⟨u, B, ?_, ?_, ?_⟩
  · rw [← hR]
    exact hdecomp.symm
  · exact hpack u (hR ▸ List.mem_cons_self u B)
  · intro c hc
    exact hpack c (hR ▸ List.mem_cons_of_mem u hc)

theorem activeMsgs_boundary_insert {A B : List CANIDMAP} {c' : CANIDMAP}
    (hA : ∀ c ∈ A, c.canId < CANID_UNSET) (hB : ∀ c ∈ B, c.canId = CANID_UNSET)
    (hc : c'.canId < CANID_UNSET) :
    activeMsgs (A ++ c' :: B) = A ++ [c'] := by
  unfold activeMsgs
  rw [takeWhile_append_of_all _ _ (fun x hx => by simpa using hA x hx)]
  rw [List.takeWhile_cons]
  simp only [hc, decide_True, if_true]
  rw [takeWhile_eq_nil_of_all_not _ (fun x hx => by simp [hB x hx])]

theorem length_takeWhile_add_dropWhile {α : Type _} (p : α → Bool) (l : List α) :
    (l.takeWhile p).length + (l.dropWhile p).length = l.length := by
  rw [← List.length_append, List.takeWhile_append_dropWhile]

theorem getD_set_ne {α : Type _} {l : List α} {i j : ℕ} {a d : α} (h : j ≠ i) :
    (l.set i a).getD j d = l.getD j d := by
  rw [List.getD_eq_getElem?_getD, List.getD_eq_getElem?_getD,
    List.getElem?_set_ne (Ne.symm h)]

theorem getD_append_length {α : Type _} (l1 l2 : List α) (d : α) :
    (l1 ++ l2).getD l1.length d = l2.getD 0 d := by
  rw [List.getD_eq_getElem?_getD, List.getD_eq_getElem?_getD,
    List.getElem?_append_right (Nat.le_refl _), Nat.sub_self]

theorem toUInt_lt_of_bounds {x : ℤ} (h0 : 0 ≤ x) (h1 : x ≤ 0x1fffffff) :
    toUInt 32 x < CANID_UNSET := by
  unfold toUInt CANID_UNSET
  have hp : ((2 ^ 32 : ℕ) : ℤ) = 4294967296 := by norm_num
  rw [hp]
  have hmod : x % 4294967296 = x := Int.emod_eq_of_lt h0 (by omega)
  rw [hmod]
  omega

theorem default_items_eq : (default : CANIDMAP).items = [] := rfl

theorem addItem_inv {m : List CANIDMAP} (hinv : TableInv m)
    (i param : ℕ) (offsetBits length : ℤ) (gain : ℚ) (offv : ℤ) :
    TableInv (addItem m i param offsetBits length gain offv).1 := by
  obtain ⟨hlen, hpack, hnodup, hslots⟩ := hinv
  cases hscan : scanFree (m.getD i default).items with
  | none =>
    simp only [addItem, hscan]
    exact ⟨hlen, hpack, hnodup, hslots⟩
  | some j =>
    by_cases hmark :
        ((m.getD i default).items.getD j default).numBits = NUMBITS_LASTMARKER
    · simp only [addItem, hscan, hmark, if_true]
      exact ⟨hlen, hpack, hnodup, hslots⟩
    · simp only [addItem, hscan, hmark, if_false]
      have hi : i < m.length := by
        by_contra hge
        rw [List.getD_eq_default _ _ (Nat.le_of_not_lt hge), default_items_eq] at hscan
        exact Option.noConfusion hscan
      have hmem : m.getD i default ∈ m := getD_mem' default hi
      obtain ⟨hcle, hilen, hipack⟩ := hslots _ hmem
      refine ⟨?_, ?_, ?_, ?_⟩
      · rw [List.length_set]; exact hlen
      · exact msgsPacked_set_same hi rfl hpack
      · rw [active_ids_set_same hi (by rfl)]; exact hnodup
      · intro c hc
        rcases List.mem_or_eq_of_mem_set hc with hcm | hceq
        · exact hslots c hcm
        · rw [hceq]
          refine ⟨hcle, ?_, ?_⟩
          · show ((m.getD i default).items.set j _).length = MAX_ITEMS_PER_MESSAGE
            rw [List.length_set]; exact hilen
          · exact itemsPacked_set_scan hipack hscan

theorem addToMap_inv {m : List CANIDMAP} (hinv : TableInv m)
    (param : ℕ) {canId : ℤ} (offsetBits length : ℤ) (gain : ℚ) (offset : ℤ)
    (hid : 0 ≤ canId) :
    TableInv (addToMap m param canId offsetBits length gain offset).1 := by
  simp only [addToMap]
  by_cases h1 : 0x1fffffff < canId
  · rw [if_pos h1]; exact hinv
  rw [if_neg h1]
  by_cases h2 : 63 < toSInt 16 offset
  · rw [if_pos h2]; exact hinv
  rw [if_neg h2]
  by_cases h3 : 32 < length
  · rw [if_pos h3]; exact hinv
  rw [if_neg h3]
  have hcidlt : toUInt 32 canId < CANID_UNSET :=
    toUInt_lt_of_bounds hid (Int.not_lt.mp h1)
  cases hf : findById m (toUInt 32 canId) with
  | some i => exact addItem_inv hinv i param offsetBits length gain (toSInt 16 offset)
  | none =>
    cases hu : findById m CANID_UNSET with
    | none => exact hinv
    | some i =>
      obtain ⟨hlen, hpack, hnodup, hslots⟩ := hinv
      have hieq : i = (activeMsgs m).length :=
        findById_unset_eq hpack (fun c hc => (hslots c hc).1) hu
      obtain ⟨hi, hueq, _⟩ := findById_some hu
      have hltm : (activeMsgs m).length < m.length := hieq ▸ hi
      obtain ⟨u, B, hmeq, huU, hBU⟩ := packed_decomp hpack hltm
      have hA : ∀ c ∈ activeMsgs m, c.canId < CANID_UNSET := by
        intro c hc
        have hc' := List.mem_takeWhile_imp hc
        simpa using hc'
      have hm2 : ∀ c₂ : CANIDMAP,
          m.set i c₂ = activeMsgs m ++ c₂ :: B := by
        intro c₂
        conv_lhs => rw [hmeq, hieq]
        rw [set_append_left_length, List.set_cons_zero]
      have hinv2 : TableInv (m.set i { m.getD i default with canId := toUInt 32 canId }) := by
        refine ⟨?_, ?_, ?_, ?_⟩
        · rw [List.length_set]; exact hlen
        · show msgsPacked (m.set i _)
          rw [hm2]
          unfold msgsPacked
          rw [dropWhile_append_of_all _ _ (fun x hx => by simpa using hA x hx)]
          rw [List.dropWhile_cons]
          simp only [hcidlt, decide_True, if_true]
          rw [dropWhile_eq_self_of_all_not _ (fun x hx => by simp [hBU x hx])]
          exact hBU
        · show ((activeMsgs (m.set i _)).map (fun c => c.canId)).Nodup
          rw [hm2, activeMsgs_boundary_insert hA hBU hcidlt, List.map_append]
          rw [List.nodup_append]
          refine ⟨hnodup, List.nodup_singleton _, ?_⟩
          intro a ha hb
          have haeq : a = toUInt 32 canId := by simpa using hb
          subst haeq
          obtain ⟨c, hcA, hceq⟩ := List.mem_map.mp ha
          have hcm : c ∈ m := mem_of_mem_takeWhile _ hcA
          exact (findById_eq_none.mp hf c hcm) hceq
        · intro c hc
          rcases List.mem_or_eq_of_mem_set hc with hcm | hceq
          · exact hslots c hcm
          · obtain ⟨_, hl, hP⟩ := hslots (m.getD i default) (getD_mem' default hi)
            rw [hceq]
            exact ⟨Nat.le_of_lt hcidlt, hl, hP⟩
      exact addItem_inv hinv2 i param offsetBits length gain (toSInt 16 offset)

theorem clearMap_inv {m : List CANIDMAP} (hlen : m.length = MAX_MESSAGES)
    (hitems : ∀ c ∈ m, c.items.length = MAX_ITEMS_PER_MESSAGE) :
    TableInv (clearMap m) := by
  have hmem : ∀ c ∈ clearMap m, c.canId = CANID_UNSET ∧
      c.items.length = MAX_ITEMS_PER_MESSAGE ∧ ∀ p ∈ c.items, p.numBits = 0 := by
    intro c hc
    obtain ⟨c₀, hc₀, rfl⟩ := List.mem_map.mp hc
    refine ⟨rfl, ?_, ?_⟩
    · simpa using hitems c₀ hc₀
    · intro q hq
      obtain ⟨q₀, hq₀, rfl⟩ := List.mem_map.mp hq
      rfl
  refine ⟨?_, ?_, ?_, ?_⟩
  · simpa [clearMap] using hlen
  · intro c hc
    exact (hmem c (mem_of_mem_dropWhile _ hc)).1
  · have hnil : activeMsgs (clearMap m) = [] := by
      apply takeWhile_eq_nil_of_all_not
      intro c hc
      simp [(hmem c hc).1]
    rw [hnil]
    exact List.nodup_nil
  · intro c hc
    obtain ⟨h1, h2, h3⟩ := hmem c hc
    refine ⟨le_of_eq h1, h2, ?_⟩
    intro q hq
    exact le_of_eq (h3 q (mem_of_mem_dropWhile _ hq))

end AddLemmas

section MapActiveLemmas

theorem activeMsgs_mapActive (f : CANPOS → CANPOS) (m : List CANIDMAP) :
    activeMsgs (mapActive f m) = (activeMsgs m).map (mapActiveItems f) := by
  unfold mapActive activeMsgs
  rw [takeWhile_append_of_all]
  · rw [takeWhile_dropWhile_nil, List.append_nil]
  · intro x hx
    obtain ⟨c, hc, rfl⟩ := List.mem_map.mp hx
    have h := List.mem_takeWhile_imp hc
    show decide ((mapActiveItems f c).canId < CANID_UNSET) = true
    exact h

theorem dropWhile_mapActive (f : CANPOS → CANPOS) (m : List CANIDMAP) :
    (mapActive f m).dropWhile (fun c => c.canId < CANID_UNSET) =
      m.dropWhile (fun c => c.canId < CANID_UNSET) := by
  unfold mapActive
  rw [dropWhile_append_of_all]
  · exact dropWhile_idem _ m
  · intro x hx
    obtain ⟨c, hc, rfl⟩ := List.mem_map.mp hx
    have hc' : c ∈ m.takeWhile (fun c => c.canId < CANID_UNSET) := hc
    have h := List.mem_takeWhile_imp hc'
    show decide ((mapActiveItems f c).canId < CANID_UNSET) = true
    exact h

theorem mapActiveItems_comp_id {f g : CANPOS → CANPOS} {c : CANIDMAP}
    (hf : ∀ q, (f q).numBits = q.numBits)
    (hq : ∀ q ∈ activeItems c, g (f q) = q) :
    mapActiveItems g (mapActiveItems f c) = c := by
  have hitems : (mapActiveItems f c).items =
      (activeItems c).map f ++ c.items.dropWhile (fun p => 0 < p.numBits) := rfl
  have hallP : ∀ y ∈ (activeItems c).map f,
      (fun p : CANPOS => decide (0 < p.numBits)) y = true := by
    intro y hy
    obtain ⟨q, hqm, rfl⟩ := List.mem_map.mp hy
    have := List.mem_takeWhile_imp hqm
    simp only [hf q]
    exact this
  have hact : activeItems (mapActiveItems f c) = (activeItems c).map f := by
    unfold activeItems
    rw [hitems, takeWhile_append_of_all _ _ hallP, takeWhile_dropWhile_nil,
      List.append_nil]
    rfl
  have hdrop : (mapActiveItems f c).items.dropWhile (fun p => 0 < p.numBits) =
      c.items.dropWhile (fun p => 0 < p.numBits) := by
    rw [hitems, dropWhile_append_of_all _ _ hallP]
    exact dropWhile_idem _ c.items
  show ({ mapActiveItems f c with
    items := (activeItems (mapActiveItems f c)).map g ++
      (mapActiveItems f c).items.dropWhile (fun p => 0 < p.numBits) } : CANIDMAP) = c
  rw [hact, hdrop, List.map_map]
  have hmaps : (activeItems c).map (g ∘ f) = activeItems c :=
    (List.map_congr_left (fun q hqm => hq q hqm)).trans (List.map_id _)
  rw [hmaps]
  rw [show activeItems c ++ c.items.dropWhile (fun p => 0 < p.numBits) = c.items from
    List.takeWhile_append_dropWhile _ _]
  exact slot_eta c

theorem mapActive_comp_id {f g : CANPOS → CANPOS} {m : List CANIDMAP}
    (hf : ∀ q, (f q).numBits = q.numBits)
    (hinv : ∀ c ∈ activeMsgs m, ∀ q ∈ activeItems c, g (f q) = q) :
    mapActive g (mapActive f m) = m := by
  have h1 := activeMsgs_mapActive f m
  have h2 := dropWhile_mapActive f m
  have hmap : (activeMsgs m).map (mapActiveItems g ∘ mapActiveItems f) = activeMsgs m :=
    (List.map_congr_left (fun c hc => mapActiveItems_comp_id hf (hinv c hc))).trans
      (List.map_id _)
  show (activeMsgs (mapActive f m)).map (mapActiveItems g) ++
      (mapActive f m).dropWhile (fun c => c.canId < CANID_UNSET) = m
  rw [h1, h2, List.map_map, hmap]
  exact List.takeWhile_append_dropWhile _ _

theorem uid_roundtrip_pointwise (env : ParamEnv) {q : CANPOS}
    (h : toUInt 16 (env.numFromId (toUInt 16 (env.uidOf q.mapParam : ℤ)) : ℤ) = q.mapParam) :
    (fun p : CANPOS => { p with mapParam := toUInt 16 (env.numFromId p.mapParam : ℤ) })
      ((fun p : CANPOS => { p with mapParam := toUInt 16 (env.uidOf p.mapParam : ℤ) }) q) = q := by
  cases q with
  | mk a b c d e => simp_all

theorem replace_roundtrip (env : ParamEnv) {m : List CANIDMAP}
    (H : ∀ c ∈ activeMsgs m, ∀ q ∈ activeItems c,
      toUInt 16 (env.numFromId (toUInt 16 (env.uidOf q.mapParam : ℤ)) : ℤ) = q.mapParam) :
    replaceUidByEnum env (replaceEnumByUid env m) = m := by
  unfold replaceUidByEnum replaceEnumByUid
  exact mapActive_comp_id (fun q => rfl)
    (fun c hc q hq => uid_roundtrip_pointwise env (H c hc q hq))

end MapActiveLemmas

section InvLemmas

theorem mapActive_inv {f : CANPOS → CANPOS} {m : List CANIDMAP}
    (hf : ∀ q, (f q).numBits = q.numBits) (hinv : TableInv m) :
    TableInv (mapActive f m) := by
  obtain ⟨hlen, hpack, hnodup, hslots⟩ := hinv
  refine ⟨?_, ?_, ?_, ?_⟩
  · show (mapActive f m).length = MAX_MESSAGES
    unfold mapActive activeMsgs
    rw [List.length_append, List.length_map, length_takeWhile_add_dropWhile]
    exact hlen
  · show msgsPacked (mapActive f m)
    unfold msgsPacked
    rw [dropWhile_mapActive]
    exact hpack
  · rw [activeMsgs_mapActive, List.map_map]
    exact hnodup
  · intro c hc
    rcases List.mem_append.mp hc with hc | hc
    · obtain ⟨c₀, hc₀, rfl⟩ := List.mem_map.mp hc
      have hc₀m : c₀ ∈ m := mem_of_mem_takeWhile _ hc₀
      obtain ⟨hb, hl, hip⟩ := hslots c₀ hc₀m
      have hallP : ∀ y ∈ (activeItems c₀).map f,
          (fun q : CANPOS => decide (0 < q.numBits)) y = true := by
        intro y hy
        obtain ⟨q, hqm, rfl⟩ := List.mem_map.mp hy
        have hq := List.mem_takeWhile_imp hqm
        simp only [hf q]
        exact hq
      refine ⟨hb, ?_, ?_⟩
      · show ((activeItems c₀).map f ++
            c₀.items.dropWhile (fun q => 0 < q.numBits)).length = MAX_ITEMS_PER_MESSAGE
        rw [List.length_append, List.length_map]
        unfold activeItems
        rw [length_takeWhile_add_dropWhile]
        exact hl
      · show ∀ q ∈ ((activeItems c₀).map f ++
            c₀.items.dropWhile (fun r => 0 < r.numBits)).dropWhile
            (fun r => 0 < r.numBits), q.numBits ≤ 0
        rw [dropWhile_append_of_all _ _ hallP, dropWhile_idem]
        exact hip
    · exact hslots c (mem_of_mem_dropWhile _ hc)

theorem loadFromFlash_inv {env : ParamEnv}
    {crcFn : List CANIDMAP → List CANIDMAP → ℕ} {send recv : List CANIDMAP}
    {img : FlashImage} (hsend : TableInv send) (hrecv : TableInv recv)
    (hs : TableInv img.sendM) (hr : TableInv img.recvM) :
    TableInv (loadFromFlash env crcFn send recv img).1.1 ∧
    TableInv (loadFromFlash env crcFn send recv img).1.2 := by
  unfold loadFromFlash
  by_cases h : img.crcWord = crcFn img.sendM img.recvM
  · rw [if_pos h]
    exact ⟨mapActive_inv (fun q => rfl) hs, mapActive_inv (fun q => rfl) hr⟩
  · rw [if_neg h]
    exact ⟨hsend, hrecv⟩

theorem findById_unset_boundary {m : List CANIDMAP} (hpack : msgsPacked m)
    (hlt : (activeMsgs m).length < m.length) :
    findById m CANID_UNSET = some (activeMsgs m).length := by
  obtain ⟨u, B, hmeq, huU, hBU⟩ := packed_decomp hpack hlt
  have hA : ∀ c ∈ activeMsgs m, c.canId ≠ CANID_UNSET := by
    intro c hc
    have hc' := List.mem_takeWhile_imp hc
    simp only [decide_eq_true_eq] at hc'
    omega
  conv_lhs => rw [hmeq]
  rw [findById_append_none hA]
  unfold findById
  rw [if_pos huU]
  simp

theorem addItem_spec (m : List CANIDMAP) (i param : ℕ)
    (offsetBits length : ℤ) (gain : ℚ) (offv : ℤ) :
    (∀ j, j ≠ i → (addItem m i param offsetBits length gain offv).1.getD j default =
      m.getD j default) ∧
    (activeMsgs (addItem m i param offsetBits length gain offv).1).length =
      (activeMsgs m).length ∧
    ∀ k, (addItem m i param offsetBits length gain offv).2 = AddResult.ok k →
      k = (activeMsgs m).length := by
  cases hscan : scanFree (m.getD i default).items with
  | none =>
    simp only [addItem, hscan]
    refine ⟨fun j hj => ?_, ?_, fun k hk => ?_⟩ <;>
      first
        | rfl | trivial | exact AddResult.noConfusion hk | exact hk.elim
  | some j =>
    by_cases hmark :
        ((m.getD i default).items.getD j default).numBits = NUMBITS_LASTMARKER
    · simp only [addItem, hscan, hmark, if_true]
      refine ⟨fun j hj => ?_, ?_, fun k hk => ?_⟩ <;>
        first
          | rfl | trivial | exact AddResult.noConfusion hk | exact hk.elim
    · simp only [addItem, hscan, hmark, if_false]
      have hi : i < m.length := by
        by_contra hge
        rw [List.getD_eq_default _ _ (Nat.le_of_not_lt hge), default_items_eq] at hscan
        exact Option.noConfusion hscan
      refine ⟨fun j' hj' => getD_set_ne hj', ?_, ?_⟩
      · exact length_takeWhile_set _ hi (by rfl)
      · intro k hk
        have h1 := AddResult.ok.inj hk
        rw [← h1]
        exact length_takeWhile_set _ hi (by rfl)

end InvLemmas

section ClaimTheorems

/-- C1: the spec claims Add rejects exactly the calls whose bit offset
exceeds 63 with InvalidOffset (so offsetBits = 64 must fail).  The code
instead validates the int16 additive translation: an Add with
offsetBits = 64 and translation 0 succeeds (storing offsetBits 64), while
an Add with offsetBits = 0 and translation 100 fails with InvalidOffset.
This theorem evaluates `Can::Add` at both inputs. -/
theorem claim_C1_offset_validation :
    (addToMap freshMap 0 1 64 8 1 0).2 = AddResult.ok 1 ∧
    (((addToMap freshMap 0 1 64 8 1 0).1.headD default).items.headD default).offsetBits = 64 ∧
    (addToMap freshMap 0 1 0 8 1 100).2 = AddResult.errInvalidOfs := by
  decide

/-- C2: the spec claims that adding an (M+1)-th field to a full message
fails with MaxItems and that the free-slot scan stays within the M-slot
field array.  Evaluating `Can::Add` on the table where message id 1
already holds MAX_ITEMS_PER_MESSAGE active mappings (all built by valid
Adds) shows the scan finds no free slot inside the array (`scanFree =
none`, i.e. the C loop dereferences `items[MAX_ITEMS_PER_MESSAGE]`, out
of bounds) and the in-array execution never reaches the MaxItems
return — nothing in the code ever writes the NUMBITS_LASTMARKER
sentinel the check looks for. -/
theorem claim_C2_maxitems_scan_overrun :
    (fullMsgState.headD default).canId = 1 ∧
    (fullMsgState.headD default).items.length = MAX_ITEMS_PER_MESSAGE ∧
    (∀ q ∈ (fullMsgState.headD default).items, 0 < q.numBits) ∧
    scanFree ((fullMsgState.headD default).items) = none ∧
    addToMap fullMsgState 10 1 0 8 1 0 = (fullMsgState, AddResult.overrun) := by
  decide

/-- C3 (counterexample): the claim says that encoding a value V with gain
G and translation T and decoding the resulting payload with the same
operations ("extract, add translation, multiply by gain") recovers V to
within one fixed-point unit.  With V = 1, G = 2, T = 0, offset 0, width
8, the encoded payload decodes to 4, which differs from V by 3 — the
decode applies the same-direction operations, not their inverses. -/
theorem claim_C3_counterexample :
    encodeItem envId ceSendPos (0, 0) = (2, 0) ∧
    envId.getFloat ceSendPos.mapParam = 1 ∧
    decodeItem ceSendPos (encodeItem envId ceSendPos (0, 0)) = 4 ∧
    envId.getFloat ceSendPos.mapParam + 1 <
      decodeItem ceSendPos (encodeItem envId ceSendPos (0, 0)) := by
  have henc : encodeItem envId ceSendPos (0, 0) = (2, 0) := by
    norm_num [encodeItem, envId, ceSendPos]
    rw [floatToU32_two]
    decide
  have hdec : decodeItem ceSendPos (2, 0) = 4 := by
    norm_num [decodeItem, ceSendPos]
    rw [show ((2 : ℕ) &&& fieldMask 8) = 2 from by decide]
    norm_num
  refine ⟨henc, rfl, by rw [henc, hdec], ?_⟩
  rw [henc, hdec]
  norm_num [envId, ceSendPos]

/-- C6: Remove(param) followed by FindMap(param) yields not-found; the
returned count is the total number of active field mappings bound to the
parameter across both tables (first rebuild pass); removing an absent
parameter returns 0 and leaves both (normal-form) tables unchanged. -/
theorem claim_C6_remove (s r : List CANIDMAP) (p : ℕ)
    (hs : NormalTable s) (hr : NormalTable r) :
    findMap (removeParam s r p).1.1 (removeParam s r p).1.2 p = none ∧
    (removeParam s r p).2 = countParam s p + countParam r p ∧
    (absentFrom s p → absentFrom r p → removeParam s r p = ((s, r), 0)) := by
  refine ⟨?_, ?_, ?_⟩
  · have h1 : findMapIn (removeParam s r p).1.1 p = none := removeFromMap_absent s p
    have h2 : findMapIn (removeParam s r p).1.2 p = none := removeFromMap_absent r p
    unfold findMap
    rw [h1, h2]
    rfl
  · have e1 := removeFromMap_count s p
    have e2 := removeFromMap_count r p
    show (removeFromMap s p).2 + (removeFromMap r p).2 = countParam s p + countParam r p
    rw [e1, e2]
  · intro has har
    have i1 := removeFromMap_ident hs has
    have i2 := removeFromMap_ident hr har
    show (((removeFromMap s p).1, (removeFromMap r p).1),
      (removeFromMap s p).2 + (removeFromMap r p).2) = ((s, r), 0)
    rw [i1, i2]
    rfl

/-- C6 witness: concrete instantiation on the one-mapping table, removing
the absent parameter 9. -/
theorem claim_C6_remove_witness :
    findMap (removeParam exampleTable freshMap 9).1.1
        (removeParam exampleTable freshMap 9).1.2 9 = none ∧
    (removeParam exampleTable freshMap 9).2 =
      countParam exampleTable 9 + countParam freshMap 9 ∧
    (absentFrom exampleTable 9 → absentFrom freshMap 9 →
      removeParam exampleTable freshMap 9 = ((exampleTable, freshMap), 0)) :=
  claim_C6_remove exampleTable freshMap 9 (by decide) (by decide)

/-- C7: Send attempts immediate transmission and on rejection pushes onto
the bounded stack only when capacity remains (dropping the frame
otherwise), leaving the transmit-complete notification enabled iff the
stack is non-empty; HandleTx pops accepted frames from the top of the
stack in order, stops at the first hardware rejection, and disables the
notification exactly when the stack ends up empty — so queued frames
leave in LIFO order (the transmitted list is a prefix of the
top-first stack). -/
theorem claim_C7_tx_queue (hwAccept : Bool) (st : TxState) (canId d0 d1 len : ℕ)
    (hw : ℕ → Bool) :
    ((sendFrame hwAccept st canId d0 d1 len).sendBuffer =
      if ¬hwAccept ∧ st.sendBuffer.length < SENDBUFFER_LEN then
        { id := canId, len := len, data0 := d0, data1 := d1 } :: st.sendBuffer
      else st.sendBuffer) ∧
    ((sendFrame hwAccept st canId d0 d1 len).tmeie =
      !(sendFrame hwAccept st canId d0 d1 len).sendBuffer.isEmpty) ∧
    (∃ n, n ≤ st.sendBuffer.length ∧
      handleTx hw st =
        ({ sendBuffer := st.sendBuffer.drop n,
           tmeie := if (st.sendBuffer.drop n).isEmpty then false else st.tmeie },
         st.sendBuffer.take n) ∧
      (∀ i < n, hw i = true) ∧
      (st.sendBuffer.drop n ≠ [] → hw n = false)) := by
  refine ⟨rfl, ?_, ?_⟩
  · show decide ((sendFrame hwAccept st canId d0 d1 len).sendBuffer ≠ []) =
      !(sendFrame hwAccept st canId d0 d1 len).sendBuffer.isEmpty
    generalize (sendFrame hwAccept st canId d0 d1 len).sendBuffer = X
    cases X <;> simp
  · obtain ⟨n, hn, heq, hacc, hrej⟩ := handleTxGo_spec hw st.sendBuffer 0
    refine ⟨n, hn, ?_, fun i hi => by simpa using hacc i hi, fun h => by simpa using hrej h⟩
    unfold handleTx
    rw [heq]

/-- C8 (counterexample): the claim says every {index, sub-index, command}
combination that is not a recognized request is answered with an abort
carrying the invalid-index code.  A frame with a valid parameter index
(0x2000) and sub-index but an unrecognized command byte (0) is echoed
back unchanged instead of aborted. -/
theorem claim_C8_counterexample :
    (processSDO envId 1 freshMap freshMap ceSDO).reply = ceSDO ∧
    (processSDO envId 1 freshMap freshMap ceSDO).reply.cmd ≠ SDO_ABORT ∧
    0x2000 ≤ ceSDO.index ∧ ceSDO.index ≤ 0x2001 ∧ ceSDO.subIndex < envId.paramLast ∧
    ceSDO.cmd ≠ SDO_WRITE ∧ ceSDO.cmd ≠ SDO_READ := by
  decide

/-- C10: the mask expression `(1 << numBits) - 1` used by the SendAll
encode path and the HandleRx decode path equals 2^numBits - 1 for every
admitted width 1 ≤ numBits ≤ 32 — including numBits = 32, where the
shift is performed by the ARM barrel shifter (amount ≥ 32 yields 0 and
the subtraction wraps to 0xFFFFFFFF) — and masking with it reduces a
value to exactly its numBits low-order bits. -/
theorem claim_C10_mask (n : ℤ) (h1 : 1 ≤ n) (h2 : n ≤ 32) :
    fieldMask n = 2 ^ n.toNat - 1 ∧ ∀ v : ℕ, v &&& fieldMask n = v % 2 ^ n.toNat := by
  obtain ⟨k, rfl⟩ : ∃ k : ℕ, n = (k : ℤ) :=
    ⟨n.toNat, (Int.toNat_of_nonneg (by omega)).symm⟩
  have hk1 : 1 ≤ k := by exact_mod_cast h1
  have hk2 : k ≤ 32 := by exact_mod_cast h2
  have hmask := fieldMask_ofNat k hk1 hk2
  constructor
  · simpa using hmask
  · intro v
    simp only [Int.toNat_ofNat, hmask]
    exact Nat.and_pow_two_sub_one_eq_mod v k

/-- C10 witness: the mask at the extreme admitted width 32. -/
theorem claim_C10_mask_witness :
    fieldMask 32 = 2 ^ (32 : ℤ).toNat - 1 ∧
    ∀ v : ℕ, v &&& fieldMask 32 = v % 2 ^ (32 : ℤ).toNat :=
  claim_C10_mask 32 (by decide) (by decide)

/-- Every ProcessSDO reply, whatever the request, is sent to the reply
base 0x580 plus the local node identifier. -/
theorem processSDO_replyId (env : ParamEnv) (nodeId : ℕ) (send recv : List CANIDMAP)
    (sdo : CAN_SDO) : (processSDO env nodeId send recv sdo).replyId = 0x580 + nodeId := by
  unfold processSDO
  repeat' split
  all_goals (first | rfl | simp [apply_ite SDOResult.replyId])

/-- C8 (amended): a frame whose index/sub-index pair lies outside both
recognized regions (parameter range 0x2000-0x2001 and mapping range
0x3000-0x47FF, each with sub-index below the parameter count) is
answered with an abort carrying the invalid-index code and mutates
neither table; within a recognized region an unrecognized command byte
echoes the frame unchanged (see the counterexample).  Every reply is
sent with identifier 0x580 + node id. -/
theorem claim_C8_amended (env : ParamEnv) (nodeId : ℕ) (send recv : List CANIDMAP)
    (sdo : CAN_SDO)
    (h1 : ¬(0x2000 ≤ sdo.index ∧ sdo.index ≤ 0x2001 ∧ sdo.subIndex < env.paramLast))
    (h2 : ¬(0x3000 ≤ sdo.index ∧ sdo.index < 0x4800 ∧ sdo.subIndex < env.paramLast)) :
    (processSDO env nodeId send recv sdo).reply =
      { sdo with cmd := SDO_ABORT, data := SDO_ERR_INVIDX } ∧
    (processSDO env nodeId send recv sdo).sendMap = send ∧
    (processSDO env nodeId send recv sdo).recvMap = recv ∧
    ∀ sdo' : CAN_SDO,
      (processSDO env nodeId send recv sdo').replyId = 0x580 + nodeId := by
  refine ⟨?_, ?_, ?_, fun sdo' => processSDO_replyId env nodeId send recv sdo'⟩ <;>
    (unfold processSDO; rw [if_neg h1, if_neg h2])

/-- C8 amended witness: concrete out-of-range index 0x5000. -/
theorem claim_C8_amended_witness :
    (processSDO envId 1 freshMap freshMap ceSDO2).reply =
      { ceSDO2 with cmd := SDO_ABORT, data := SDO_ERR_INVIDX } ∧
    (processSDO envId 1 freshMap freshMap ceSDO2).sendMap = freshMap ∧
    (processSDO envId 1 freshMap freshMap ceSDO2).recvMap = freshMap ∧
    ∀ sdo' : CAN_SDO, (processSDO envId 1 freshMap freshMap sdo').replyId = 0x580 + 1 :=
  claim_C8_amended envId 1 freshMap freshMap ceSDO2 (by decide) (by decide)

/-- C4: Save followed by Load (from the just-cleared startup state)
reproduces both tables exactly — assuming each mapped parameter's stable
unique id translates back, through the 16-bit stored field, to the same
enumerated reference — and Save itself restores the in-memory tables;
when the stored checksum word does not match the checksum computed over
the two stored table regions, Load reports rejection and adopts
nothing, leaving the in-memory tables at their cleared default. -/
theorem claim_C4_persistence (env : ParamEnv)
    (crcFn : List CANIDMAP → List CANIDMAP → ℕ) (s r : List CANIDMAP) (img : FlashImage)
    (H : ∀ c ∈ activeMsgs s ++ activeMsgs r, ∀ q ∈ activeItems c,
      toUInt 16 (env.numFromId (toUInt 16 (env.uidOf q.mapParam : ℤ)) : ℤ) = q.mapParam) :
    loadFromFlash env crcFn freshMap freshMap (save env crcFn s r).1 = ((s, r), true) ∧
    (save env crcFn s r).2 = (s, r) ∧
    (img.crcWord ≠ crcFn img.sendM img.recvM →
      loadFromFlash env crcFn freshMap freshMap img = ((freshMap, freshMap), false)) := by
  have Hs : ∀ c ∈ activeMsgs s, ∀ q ∈ activeItems c,
      toUInt 16 (env.numFromId (toUInt 16 (env.uidOf q.mapParam : ℤ)) : ℤ) = q.mapParam :=
    fun c hc => H c (List.mem_append.mpr (Or.inl hc))
  have Hr : ∀ c ∈ activeMsgs r, ∀ q ∈ activeItems c,
      toUInt 16 (env.numFromId (toUInt 16 (env.uidOf q.mapParam : ℤ)) : ℤ) = q.mapParam :=
    fun c hc => H c (List.mem_append.mpr (Or.inr hc))
  have hs := replace_roundtrip env Hs
  have hr := replace_roundtrip env Hr
  refine ⟨?_, ?_, ?_⟩
  · show (if (save env crcFn s r).1.crcWord =
        crcFn (save env crcFn s r).1.sendM (save env crcFn s r).1.recvM then
        ((replaceUidByEnum env (save env crcFn s r).1.sendM,
          replaceUidByEnum env (save env crcFn s r).1.recvM), true)
      else ((freshMap, freshMap), false)) = ((s, r), true)
    have hc : (save env crcFn s r).1.crcWord =
        crcFn (save env crcFn s r).1.sendM (save env crcFn s r).1.recvM := rfl
    rw [if_pos hc]
    show ((replaceUidByEnum env (replaceEnumByUid env s),
      replaceUidByEnum env (replaceEnumByUid env r)), true) = ((s, r), true)
    rw [hs, hr]
  · show (replaceUidByEnum env (replaceEnumByUid env s),
      replaceUidByEnum env (replaceEnumByUid env r)) = (s, r)
    rw [hs, hr]
  · intro hne
    unfold loadFromFlash
    rw [if_neg hne]

/-- C4 witness: empty tables, a concrete checksum collaborator, and a
concrete mismatching image. -/
theorem claim_C4_persistence_witness :
    loadFromFlash envId zeroCrc freshMap freshMap
        (save envId zeroCrc freshMap freshMap).1 = ((freshMap, freshMap), true) ∧
    (save envId zeroCrc freshMap freshMap).2 = (freshMap, freshMap) ∧
    (badImg.crcWord ≠ zeroCrc badImg.sendM badImg.recvM →
      loadFromFlash envId zeroCrc freshMap freshMap badImg =
        ((freshMap, freshMap), false)) :=
  claim_C4_persistence envId zeroCrc freshMap freshMap badImg (by decide)

/-- Transport lemma for the codec: under the word-boundary constraints,
the decode path extracts exactly the truncated scaled value that the
encode path deposited, so the decoded number is (floor(V*G+T) + T')*G'
for the decode-side translation T' and gain G'. -/
theorem decode_encode_value (env : ParamEnv) (pe pd : CANPOS) (W : ℕ)
    (hW1 : 1 ≤ W) (hW2 : W ≤ 32)
    (hOeq : pd.offsetBits = pe.offsetBits) (hO : pe.offsetBits ≤ 63)
    (hWe : pe.numBits = (W : ℤ)) (hWd : pd.numBits = (W : ℤ))
    (hlow : pe.offsetBits ≤ 31 → pe.offsetBits + W ≤ 32)
    (hhigh : 31 < pe.offsetBits → pe.offsetBits + W ≤ 64)
    (hx0 : 0 ≤ env.getFloat pe.mapParam * pe.gain + (pe.offset : ℚ))
    (hx1 : env.getFloat pe.mapParam * pe.gain + (pe.offset : ℚ) < ((2 ^ W : ℕ) : ℚ)) :
    decodeItem pd (encodeItem env pe (0, 0)) =
      ((⌊env.getFloat pe.mapParam * pe.gain + (pe.offset : ℚ)⌋ : ℚ) + (pd.offset : ℚ)) *
        pd.gain := by
  have hmask := fieldMask_ofNat W hW1 hW2
  have hfl0 : (0 : ℤ) ≤ ⌊env.getFloat pe.mapParam * pe.gain + (pe.offset : ℚ)⌋ :=
    Int.floor_nonneg.mpr hx0
  have hflW : ⌊env.getFloat pe.mapParam * pe.gain + (pe.offset : ℚ)⌋ < (2 : ℤ) ^ W := by
    rw [Int.floor_lt]
    exact_mod_cast hx1
  have hvW : (⌊env.getFloat pe.mapParam * pe.gain + (pe.offset : ℚ)⌋).toNat < 2 ^ W := by
    have hcast := Int.toNat_of_nonneg hfl0
    exact_mod_cast hcast ▸ hflW
  have hval : floatToU32 (env.getFloat pe.mapParam * pe.gain + (pe.offset : ℚ)) &&&
      fieldMask pe.numBits =
      (⌊env.getFloat pe.mapParam * pe.gain + (pe.offset : ℚ)⌋).toNat := by
    unfold floatToU32 toUInt
    rw [if_neg (not_lt.mpr hx0), hWe, hmask]
    have h1 : ⌊env.getFloat pe.mapParam * pe.gain + (pe.offset : ℚ)⌋ % ((2 ^ 32 : ℕ) : ℤ) =
        ⌊env.getFloat pe.mapParam * pe.gain + (pe.offset : ℚ)⌋ := by
      refine Int.emod_eq_of_lt hfl0 ?_
      have h2 : (2 : ℤ) ^ W ≤ 2 ^ 32 := pow_le_pow_right₀ (by norm_num) hW2
      push_cast
      omega
    rw [h1, Nat.and_pow_two_sub_one_eq_mod, Nat.mod_eq_of_lt hvW]
  have hcastQ : (((⌊env.getFloat pe.mapParam * pe.gain + (pe.offset : ℚ)⌋).toNat : ℕ) : ℚ) =
      ((⌊env.getFloat pe.mapParam * pe.gain + (pe.offset : ℚ)⌋ : ℤ) : ℚ) := by
    exact_mod_cast congrArg (fun z : ℤ => (z : ℚ)) (Int.toNat_of_nonneg hfl0)
  by_cases hbr : 31 < pe.offsetBits
  · have hbr' : 31 < pd.offsetBits := hOeq ▸ hbr
    have hOW : (pe.offsetBits - 32) + W ≤ 32 := by
      have := hhigh hbr
      omega
    have henc : encodeItem env pe (0, 0) =
        (0, armShl32 ((⌊env.getFloat pe.mapParam * pe.gain + (pe.offset : ℚ)⌋).toNat)
          (pe.offsetBits - 32)) := by
      simp only [encodeItem]
      rw [if_pos hbr, hval]
      rw [Nat.zero_or]
    have hdec : decodeItem pd
        (0, armShl32 ((⌊env.getFloat pe.mapParam * pe.gain + (pe.offset : ℚ)⌋).toNat)
          (pe.offsetBits - 32)) =
        (((⌊env.getFloat pe.mapParam * pe.gain + (pe.offset : ℚ)⌋).toNat : ℚ) +
          (pd.offset : ℚ)) * pd.gain := by
      simp only [decodeItem]
      rw [if_pos hbr', hOeq, hWd, hmask, armShl32_extract hvW hW1 hOW]
    rw [henc, hdec, hcastQ]
  · have hbr' : ¬ 31 < pd.offsetBits := hOeq ▸ hbr
    have hOW : pe.offsetBits + W ≤ 32 := hlow (by omega)
    have henc : encodeItem env pe (0, 0) =
        (armShl32 ((⌊env.getFloat pe.mapParam * pe.gain + (pe.offset : ℚ)⌋).toNat)
          pe.offsetBits, 0) := by
      simp only [encodeItem]
      rw [if_neg hbr, hval]
      rw [Nat.zero_or]
    have hdec : decodeItem pd
        (armShl32 ((⌊env.getFloat pe.mapParam * pe.gain + (pe.offset : ℚ)⌋).toNat)
          pe.offsetBits, 0) =
        (((⌊env.getFloat pe.mapParam * pe.gain + (pe.offset : ℚ)⌋).toNat : ℚ) +
          (pd.offset : ℚ)) * pd.gain := by
      simp only [decodeItem]
      rw [if_neg hbr', hOeq, hWd, hmask, armShl32_extract hvW hW1 hOW]
    rw [henc, hdec, hcastQ]

/-- C3 (amended): encoding V with gain G and translation T at offset O
width W, then decoding the payload with the reciprocal gain 1/G and the
negated translation -T (the receive-side mapping that inverts the
transmit mapping), recovers V to within one encoder quantization step
1/G — provided G > 0, the scaled value V*G+T lies in [0, 2^W), and the
field does not straddle the 32-bit word boundary.  Decoding with the
same-direction G and T does not recover V (see the counterexample). -/
theorem claim_C3_codec_roundtrip (env : ParamEnv) (pe pd : CANPOS) (G : ℚ) (T : ℤ) (W : ℕ)
    (hG : 0 < G) (hW1 : 1 ≤ W) (hW2 : W ≤ 32)
    (hTe : pe.offset = T) (hGe : pe.gain = G) (hTd : pd.offset = -T) (hGd : pd.gain = G⁻¹)
    (hOeq : pd.offsetBits = pe.offsetBits) (hO : pe.offsetBits ≤ 63)
    (hWe : pe.numBits = (W : ℤ)) (hWd : pd.numBits = (W : ℤ))
    (hlow : pe.offsetBits ≤ 31 → pe.offsetBits + W ≤ 32)
    (hhigh : 31 < pe.offsetBits → pe.offsetBits + W ≤ 64)
    (hx0 : 0 ≤ env.getFloat pe.mapParam * G + (T : ℚ))
    (hx1 : env.getFloat pe.mapParam * G + (T : ℚ) < ((2 ^ W : ℕ) : ℚ)) :
    decodeItem pd (encodeItem env pe (0, 0)) ≤ env.getFloat pe.mapParam ∧
    env.getFloat pe.mapParam - G⁻¹ < decodeItem pd (encodeItem env pe (0, 0)) := by
  have hx0' : 0 ≤ env.getFloat pe.mapParam * pe.gain + (pe.offset : ℚ) := by
    rw [hGe, hTe]; exact hx0
  have hx1' : env.getFloat pe.mapParam * pe.gain + (pe.offset : ℚ) < ((2 ^ W : ℕ) : ℚ) := by
    rw [hGe, hTe]; exact hx1
  have hvalue := decode_encode_value env pe pd W hW1 hW2 hOeq hO hWe hWd hlow hhigh hx0' hx1'
  rw [hGe, hTe] at hvalue
  rw [hTd, hGd] at hvalue
  have hfl_le : (⌊env.getFloat pe.mapParam * G + (T : ℚ)⌋ : ℚ) ≤
      env.getFloat pe.mapParam * G + (T : ℚ) := Int.floor_le _
  have hfl_gt : env.getFloat pe.mapParam * G + (T : ℚ) - 1 <
      (⌊env.getFloat pe.mapParam * G + (T : ℚ)⌋ : ℚ) := Int.sub_one_lt_floor _
  have hGinv : (0 : ℚ) < G⁻¹ := inv_pos.mpr hG
  have hGne : G ≠ 0 := ne_of_gt hG
  constructor
  · rw [hvalue]
    have step : ((⌊env.getFloat pe.mapParam * G + (T : ℚ)⌋ : ℚ) + ((-T : ℤ) : ℚ)) * G⁻¹ ≤
        ((env.getFloat pe.mapParam * G + (T : ℚ)) + ((-T : ℤ) : ℚ)) * G⁻¹ := by
      refine mul_le_mul_of_nonneg_right ?_ (le_of_lt hGinv)
      push_cast
      linarith
    refine le_trans step (le_of_eq ?_)
    push_cast
    field_simp
  · rw [hvalue]
    have hVeq : env.getFloat pe.mapParam - G⁻¹ =
        ((env.getFloat pe.mapParam * G + (T : ℚ)) + ((-T : ℤ) : ℚ) - 1) * G⁻¹ := by
      push_cast
      field_simp
    rw [hVeq]
    refine mul_lt_mul_of_pos_right ?_ hGinv
    push_cast
    linarith

/-- C3 amended witness: V = 10, G = 2, T = 3, O = 4, W = 8 — the scaled
value 23 fits the 8-bit field and the decode recovers V. -/
theorem claim_C3_codec_roundtrip_witness :
    decodeItem pdW (encodeItem envTen peW (0, 0)) ≤ envTen.getFloat peW.mapParam ∧
    envTen.getFloat peW.mapParam - (2 : ℚ)⁻¹ < decodeItem pdW (encodeItem envTen peW (0, 0)) :=
  claim_C3_codec_roundtrip envTen peW pdW 2 3 8 (by norm_num) (by norm_num) (by norm_num)
    rfl rfl rfl rfl rfl (by norm_num [peW]) rfl rfl
    (by intro _; norm_num [peW]) (by intro h; norm_num [peW] at h)
    (by norm_num [envTen, peW]) (by norm_num [envTen, peW])

/-- C9 (counterexample): the claim says every successful Load preserves
the MessageTable invariant.  LoadFromFlash validates only the checksum:
a flash image whose stored send table holds the identifier 5 twice, with
a matching checksum word, is adopted (return value 1) and the resulting
in-memory send table violates the invariant (duplicate active
identifier). -/
theorem claim_C9_counterexample :
    (loadFromFlash envId zeroCrc freshMap freshMap dupImg).2 = true ∧
    ¬ TableInv (loadFromFlash envId zeroCrc freshMap freshMap dupImg).1.1 := by
  decide

/-- C9 (amended): Clear, Add (with a nonnegative identifier argument) and
Remove each preserve the MessageTable invariant — fixed capacity, packed
active messages with pairwise distinct identifiers, and packed field
mappings per message.  Load performs no structural validation of its
own: it preserves the invariant when the checksum mismatch makes it keep
the current tables, or when the stored image's tables already satisfy
it. -/
theorem claim_C9_amended (m send recv : List CANIDMAP) (param : ℕ)
    (canId offsetBits length : ℤ) (gain : ℚ) (offset : ℤ)
    (env : ParamEnv) (crcFn : List CANIDMAP → List CANIDMAP → ℕ) (img : FlashImage)
    (hinv : TableInv m) (hid : 0 ≤ canId)
    (hsend : TableInv send) (hrecv : TableInv recv)
    (hs : TableInv img.sendM) (hr : TableInv img.recvM) :
    TableInv (clearMap m) ∧
    TableInv (addToMap m param canId offsetBits length gain offset).1 ∧
    TableInv (removeFromMap m param).1 ∧
    TableInv (loadFromFlash env crcFn send recv img).1.1 ∧
    TableInv (loadFromFlash env crcFn send recv img).1.2 :=
  ⟨clearMap_inv hinv.1 (fun c hc => (hinv.2.2.2 c hc).2.1),
   addToMap_inv hinv param offsetBits length gain offset hid,
   removeFromMap_inv param hinv,
   (loadFromFlash_inv hsend hrecv hs hr).1,
   (loadFromFlash_inv hsend hrecv hs hr).2⟩

/-- C9 amended witness: the invariant preservation instantiated at the
one-message example table, cleared in-memory tables, and a
checksum-matching image of two empty tables. -/
theorem claim_C9_amended_witness :
    TableInv exampleTable ∧ (0 : ℤ) ≤ 1 ∧ TableInv freshMap ∧
    TableInv okImg.sendM ∧ TableInv okImg.recvM ∧
    (TableInv (clearMap exampleTable) ∧
     TableInv (addToMap exampleTable 9 1 8 8 1 0).1 ∧
     TableInv (removeFromMap exampleTable 9).1 ∧
     TableInv (loadFromFlash envId zeroCrc freshMap freshMap okImg).1.1 ∧
     TableInv (loadFromFlash envId zeroCrc freshMap freshMap okImg).1.2) :=
  ⟨by decide, by decide, by decide, by decide, by decide,
   claim_C9_amended exampleTable freshMap freshMap 9 1 8 8 1 0 envId zeroCrc okImg
     (by decide) (by decide) (by decide) (by decide) (by decide) (by decide)⟩

/-- C5: on a normal-form table, a valid Add (identifier at most
0x1FFFFFFF, additive translation at most 63, width at most 32) reuses
the message slot holding the same identifier when one exists — every
other slot untouched, the active-message count unchanged, and any
successful return value equal to that count; otherwise it allocates the
first unused slot (index = number of active messages), stores the
identifier there, leaves every other slot untouched and returns
ok(count+1); and when every slot is in use it fails with MaxMessages and
leaves the table unchanged. -/
theorem claim_C5_allocation (m : List CANIDMAP) (param : ℕ)
    (canId offsetBits length : ℤ) (gain : ℚ) (offset : ℤ)
    (hnorm : NormalTable m)
    (h0 : 0 ≤ canId) (h1 : canId ≤ 0x1fffffff)
    (h2 : toSInt 16 offset ≤ 63) (h3 : length ≤ 32) :
    (∀ i, findById m (toUInt 32 canId) = some i →
      (∀ j, j ≠ i →
        (addToMap m param canId offsetBits length gain offset).1.getD j default =
          m.getD j default) ∧
      (activeMsgs (addToMap m param canId offsetBits length gain offset).1).length =
        (activeMsgs m).length ∧
      ∀ k, (addToMap m param canId offsetBits length gain offset).2 = AddResult.ok k →
        k = (activeMsgs m).length) ∧
    (findById m (toUInt 32 canId) = none → (activeMsgs m).length < m.length →
      findById m CANID_UNSET = some (activeMsgs m).length ∧
      ((addToMap m param canId offsetBits length gain offset).1.getD
        (activeMsgs m).length default).canId = toUInt 32 canId ∧
      (∀ j, j ≠ (activeMsgs m).length →
        (addToMap m param canId offsetBits length gain offset).1.getD j default =
          m.getD j default) ∧
      (addToMap m param canId offsetBits length gain offset).2 =
        AddResult.ok ((activeMsgs m).length + 1)) ∧
    (findById m (toUInt 32 canId) = none → (activeMsgs m).length = m.length →
      addToMap m param canId offsetBits length gain offset =
        (m, AddResult.errMaxMessages)) := by
  obtain ⟨⟨hlen, hpack, hnodup, hslots⟩, hactive, hzero⟩ := hnorm
  have hnv1 : ¬ 0x1fffffff < canId := Int.not_lt.mpr h1
  have hnv2 : ¬ 63 < toSInt 16 offset := Int.not_lt.mpr h2
  have hnv3 : ¬ 32 < length := Int.not_lt.mpr h3
  have hcidlt : toUInt 32 canId < CANID_UNSET := toUInt_lt_of_bounds h0 h1
  simp only [addToMap]
  rw [if_neg hnv1, if_neg hnv2, if_neg hnv3]
  cases hf : findById m (toUInt 32 canId) with
  | some i =>
    dsimp only
    refine ⟨?_, ?_, ?_⟩
    · intro i' hf'
      have hii : i = i' := Option.some.inj hf'
      subst hii
      exact addItem_spec m i param offsetBits length gain (toSInt 16 offset)
    · intro hne
      exact Option.noConfusion hne
    · intro hne
      exact Option.noConfusion hne
  | none =>
    cases hu : findById m CANID_UNSET with
    | none =>
      dsimp only
      refine ⟨?_, ?_, ?_⟩
      · intro i' hf'
        exact Option.noConfusion hf'
      · intro _ hlt
        have hbnd := findById_unset_boundary hpack hlt
        rw [hu] at hbnd
        exact Option.noConfusion hbnd
      · intro _ _
        rfl
    | some i =>
      dsimp only
      refine ⟨?_, ?_, ?_⟩
      · intro i' hf'
        exact Option.noConfusion hf'
      · intro _ hlt
        have hbnd := findById_unset_boundary hpack hlt
        rw [hu] at hbnd
        have hieq : i = (activeMsgs m).length := Option.some.inj hbnd
        rw [← hieq]
        obtain ⟨u, B, hmeq, huU, hBU⟩ := packed_decomp hpack hlt
        have hA : ∀ c ∈ activeMsgs m, c.canId < CANID_UNSET := by
          intro c hc
          have hc' := List.mem_takeWhile_imp hc
          simpa using hc'
        have hgu : m.getD i default = u := by
          conv_lhs => rw [hmeq, hieq]
          rw [getD_append_length, List.getD_cons_zero]
        have hi2 : i < m.length := by omega
        have hm2 : ∀ c' : CANIDMAP, m.set i c' = activeMsgs m ++ c' :: B := by
          intro c'
          conv_lhs => rw [hmeq, hieq]
          rw [set_append_left_length, List.set_cons_zero]
        have hum : u ∈ m := by
          rw [hmeq]
          exact List.mem_append_right _ (List.mem_cons_self u B)
        have hdw : m.dropWhile (fun c => c.canId < CANID_UNSET) = u :: B := by
          conv_lhs => rw [hmeq]
          rw [dropWhile_append_of_all _ _ (fun x hx => by simpa using hA x hx),
            List.dropWhile_cons]
          rw [if_neg (by simp [huU])]
        have hu0 : ∀ q ∈ u.items, q.numBits = 0 :=
          hzero u (by rw [hdw]; exact List.mem_cons_self u B)
        have hulen : u.items.length = MAX_ITEMS_PER_MESSAGE := (hslots u hum).2.1
        have hune : u.items ≠ [] := by
          intro hnil
          rw [hnil] at hulen
          simp [MAX_ITEMS_PER_MESSAGE] at hulen
        obtain ⟨q, qs, hqeq⟩ := List.exists_cons_of_ne_nil hune
        have hq0 : q.numBits = 0 := hu0 q (by rw [hqeq]; exact List.mem_cons_self q qs)
        have hscan : scanFree u.items = some 0 := by
          rw [hqeq]
          simp only [scanFree]
          rw [if_neg (by rw [hq0]; exact lt_irrefl 0)]
        have hgset : ∀ c' : CANIDMAP, (m.set i c').getD i default = c' :=
          fun c' => getD_set_self hi2
        have hmarkne : ¬ (u.items.getD 0 default).numBits = NUMBITS_LASTMARKER := by
          rw [hqeq, List.getD_cons_zero, hq0]
          decide
        have hcount : ∀ c' : CANIDMAP, c'.canId < CANID_UNSET →
            (activeMsgs (m.set i c')).length = i + 1 := by
          intro c' hcA2
          rw [hm2 c', activeMsgs_boundary_insert hA hBU hcA2, List.length_append,
            ← hieq]
          simp
        rw [hgu]
        simp only [addItem, hgset, hscan]
        rw [if_neg hmarkne]
        refine ⟨trivial, ?_, ?_, ?_⟩
        · rw [List.set_set, hgset]
        · intro j hj
          rw [List.set_set, getD_set_ne hj]
        · rw [List.set_set, hcount _ hcidlt]
      · intro _ heq
        have hall : activeMsgs m = m :=
          (List.takeWhile_sublist _).eq_of_length heq
        have hnone : findById m CANID_UNSET = none := by
          rw [findById_eq_none]
          intro c hc
          have hc' : c ∈ activeMsgs m := by rw [hall]; exact hc
          have hlt' := List.mem_takeWhile_imp hc'
          simp only [decide_eq_true_eq] at hlt'
          omega
        rw [hu] at hnone
        exact Option.noConfusion hnone

/-- C5 witness: on the one-message example table (identifier 1 active in
slot 0), an Add with the same identifier hits the existing-message
branch: a successful return value ok 1 equals the active-message
count 1. -/
theorem claim_C5_allocation_witness :
    NormalTable exampleTable ∧ (0 : ℤ) ≤ 1 ∧ (1 : ℤ) ≤ 0x1fffffff ∧
    toSInt 16 0 ≤ 63 ∧ (8 : ℤ) ≤ 32 ∧
    findById exampleTable (toUInt 32 1) = some 0 ∧
    (addToMap exampleTable 9 1 8 8 1 0).2 = AddResult.ok 1 ∧
    1 = (activeMsgs exampleTable).length :=
  ⟨by decide, by decide, by decide, by decide, by decide, by decide, by decide,
   ((claim_C5_allocation exampleTable 9 1 8 8 1 0 (by decide) (by decide)
       (by decide) (by decide) (by decide)).1 0 (by decide)).2.2 1 (by decide)⟩

end ClaimTheorems

end Stm32Can
